import Mathlib

/-!
Verification of the scheduling engine in
`apps/scheduler/utils/scheduler.py` (EECS581_Project_3).

Shallow embedding conventions:

* Time instants are integers counting microseconds since the Unix epoch
  (Python `datetime` has microsecond resolution).  A timezone-aware
  `datetime` object is modelled by `Dt`, a pair of the UTC instant and
  the utcoffset (in microseconds) of the `tzinfo` it is represented in:
  Python compares aware datetimes by instant, but `.date()` / `.time()`
  read the wall clock of the representation, and the code mixes both.
  `pytz` timezones are modelled as fixed offsets.
* A Python `date` is the integer day number (days since 1970-01-01,
  which was a Thursday); a Python `time` is the microsecond of the day.
* Python `sorted` / `list.sort` are stable sorts; they are modelled by
  `pySorted`, a structurally recursive insertion sort that is stable
  and sorted for the same boolean key comparison, hence produces the
  same list as any stable sort.
* Fallible code is modelled in the `Res` monad: `.error` models a
  raised exception (the message names the Python exception), `.diverge`
  models an infinite loop.
-/

namespace Scheduler

/-- Microseconds in a second, minute, hour and day. -/
def usPerSecond : Int := 1000000

def usPerMinute : Int := 60000000

def usPerHour : Int := 3600000000

def usPerDay : Int := 86400000000

/-- Python `time.max` (23:59:59.999999) as a microsecond-of-day. -/
def timeMax : Int := usPerDay - 1

/-- Model of a timezone-aware Python `datetime`: the UTC instant plus the
utcoffset of the `tzinfo` the object is represented in (microseconds). -/
structure Dt where
  instant : Int
  tz : Int
deriving Repr, DecidableEq

/-- Wall-clock microseconds of the representation (`instant + utcoffset`). -/
def Dt.wall (d : Dt) : Int := d.instant + d.tz

/-- Python `datetime.date()` of the representation, as a day number. -/
def Dt.date (d : Dt) : Int := d.wall.fdiv usPerDay

/-- Python `datetime.time()` of the representation, as microsecond-of-day. -/
def Dt.timeOfDay (d : Dt) : Int := d.wall.emod usPerDay

/-- Python `datetime.astimezone(tz)`: same instant, new representation. -/
def Dt.astimezone (d : Dt) (tz : Int) : Dt := ⟨d.instant, tz⟩

/-- Python `datetime + timedelta`: shifts the instant, keeps the tzinfo. -/
def Dt.addMicros (d : Dt) (x : Int) : Dt := ⟨d.instant + x, d.tz⟩

/-- Python `max(a, b)` on datetimes: compares instants, ties keep the
first argument (with its tzinfo representation). -/
def dtMax (a b : Dt) : Dt := if b.instant > a.instant then b else a

/-- Python `min(a, b)` on datetimes: compares instants, ties keep the
first argument. -/
def dtMin (a b : Dt) : Dt := if b.instant < a.instant then b else a

/-- Python `date.weekday()`: Monday = 0 .. Sunday = 6.  Day 0
(1970-01-01) was a Thursday (= 3). -/
def weekday (d : Int) : Int := (d + 3).emod 7

/-- Model of `to_datetime(d, t, tzinfo_local)`: combine day `d` and
microsecond-of-day `t`, localize in `tz` (or the server timezone
`systemTz` when `tz` is `none`), convert to UTC.  The result is always
represented in UTC. -/
def to_datetime (d : Int) (t : Int) (tz : Option Int) (systemTz : Int) : Dt :=
  ⟨d * usPerDay + t - tz.getD systemTz, 0⟩

/-! ### Python `sorted` (stable sort), modelled as insertion sort -/

/-- Insert `x` before the first element `y` with `le x y`. -/
def pyInsert (le : α → α → Bool) (x : α) : List α → List α
  | [] => [x]
  | y :: ys => if le x y then x :: y :: ys else y :: pyInsert le x ys

/-- Model of Python `sorted(l, key=...)`: a stable sort for the boolean
comparison `le`.  Stable + sorted determines the output uniquely, so
this insertion sort computes the same list as CPython's Timsort. -/
def pySorted (le : α → α → Bool) : List α → List α
  | [] => []
  | x :: xs => pyInsert le x (pySorted le xs)

/-! ### Interval algebra: `merge_busy_slots` and `invert_slots` -/

/-- The 1-second adjacency tolerance (`timedelta(seconds=1)`). -/
def tolerance : Int := usPerSecond

/-- Key comparison of `sorted(busy, key=lambda x: x[0])`. -/
def leStart (a b : Dt × Dt) : Bool := decide (a.1.instant ≤ b.1.instant)

/-- The fold inside `merge_busy_slots`: absorb the next interval when its
start is within `cur_e + 1s`, else emit the current interval. -/
def mergeGo (curS curE : Dt) : List (Dt × Dt) → List (Dt × Dt)
  | [] => [(curS, curE)]
  | (s, e) :: rest =>
    if s.instant ≤ curE.instant + tolerance then
      mergeGo curS (dtMax curE e) rest
    else
      (curS, curE) :: mergeGo s e rest

/-- Model of `merge_busy_slots`: sort by start, then fold
overlapping/adjacent intervals together. -/
def merge_busy_slots (busy : List (Dt × Dt)) : List (Dt × Dt) :=
  match pySorted leStart busy with
  | [] => []
  | (s, e) :: rest => mergeGo s e rest

/-- The loop of `invert_slots`, carrying the cursor `cur`. -/
def invertGo (ws we : Dt) (cur : Dt) : List (Dt × Dt) → List (Dt × Dt)
  | [] => if cur.instant < we.instant then [(cur, we)] else []
  | (s, e) :: rest =>
    if e.instant ≤ ws.instant ∨ s.instant ≥ we.instant then
      invertGo ws we cur rest
    else
      (if (dtMax s ws).instant > cur.instant then [(cur, dtMax s ws)] else [])
        ++ invertGo ws we (dtMax cur (dtMin e we)) rest

/-- Model of `invert_slots`: free sub-intervals of `[ws, we)` not covered
by the (already merged) busy list. -/
def invert_slots (busy : List (Dt × Dt)) (ws we : Dt) : List (Dt × Dt) :=
  invertGo ws we ws busy

/-! ### Result monad: raised exceptions and divergence -/

/-- Outcome of running a piece of the Python code: a value, a raised
exception (with a message naming the Python exception), or an infinite
loop. -/
inductive Res (α : Type) where
  | ok : α → Res α
  | error : String → Res α
  | diverge : Res α
deriving Repr, DecidableEq

def Res.bind : Res α → (α → Res β) → Res β
  | .ok a, f => f a
  | .error m, _ => .error m
  | .diverge, _ => .diverge

instance : Monad Res where
  pure := Res.ok
  bind := Res.bind

instance : LawfulMonad Res :=
  LawfulMonad.mk' Res
    (fun x => by cases x <;> rfl)
    (fun x f => rfl)
    (fun x f g => by cases x <;> rfl)

/-! ### Event requests and normalization -/

/-- An expanded event request (the output of `expand_event_request`):
dates are day numbers, times are microseconds-of-day. -/
structure Event where
  title : String
  description : String
  duration_minutes : Int
  priority : String
  event_type : String
  date_start : Option Int
  date_end : Option Int
  time_start : Option Int
  time_end : Option Int
  split : Bool
  split_minutes : Option Int
  recurring : Bool
  recurring_until : Option Int
deriving Repr, DecidableEq

/-- A raw session event request, before `expand_event_request`.  String
parsing is abstracted: for each serialized field, `none` models an
absent/`None`/falsy value, `some none` a present but unparsable string
(parsing raises), and `some (some v)` a string that parses to `v`. -/
structure RawEvent where
  title : String
  description : String
  duration_minutes : Option (Option Int)
  priority : String
  event_type : String
  date_start : Option (Option Int)
  date_end : Option (Option Int)
  time_start : Option (Option Int)
  time_end : Option (Option Int)
  split : Bool
  split_minutes : Option (Option Int)
  recurring : Bool
  recurring_until : Option (Option Int)
deriving Repr, DecidableEq

/-- `date.fromisoformat` / `time.fromisoformat` on an optional field:
absent stays `None`, an unparsable string raises `ValueError`. -/
def parseField (v : Option (Option Int)) (exc : String) : Res (Option Int) :=
  match v with
  | none => .ok none
  | some none => .error exc
  | some (some x) => .ok (some x)

/-- Model of `expand_event_request`: convert serialized fields to typed
values; `int(t.get("duration_minutes"))` raises on `None` or an
unparsable string; `split_minutes` is only converted when truthy.
Note: no positivity check is performed on any numeric field. -/
def expand_event_request (t : RawEvent) : Res Event := do
  let ds ← parseField t.date_start "ValueError: Invalid isoformat string (date_start)"
  let de ← parseField t.date_end "ValueError: Invalid isoformat string (date_end)"
  let ts ← parseField t.time_start "ValueError: Invalid isoformat string (time_start)"
  let te ← parseField t.time_end "ValueError: Invalid isoformat string (time_end)"
  let dur ← match t.duration_minutes with
    | none => Res.error "TypeError: int() argument cannot be NoneType"
    | some none => Res.error "ValueError: invalid literal for int() (duration_minutes)"
    | some (some n) => Res.ok n
  let sm ← match t.split_minutes with
    | none => Res.ok (none : Option Int)
    | some none => Res.error "ValueError: invalid literal for int() (split_minutes)"
    | some (some m) => Res.ok (some m)
  let ru ← parseField t.recurring_until "ValueError: Invalid isoformat string (recurring_until)"
  Res.ok { title := t.title, description := t.description, duration_minutes := dur,
           priority := t.priority, event_type := t.event_type,
           date_start := ds, date_end := de, time_start := ts, time_end := te,
           split := t.split, split_minutes := sm, recurring := t.recurring,
           recurring_until := ru }

/-- The `while remaining > 0` loop of `split_into_chunks`, with fuel.
For a positive chunk size the loop removes at least one minute per step,
so `duration.toNat + 1` fuel always suffices; for a negative chunk size
`remaining` grows forever, the fuel runs out and the result is
`.diverge` (the Python loop never terminates). -/
def splitGo (s : Int) : Nat → Int → Res (List Int)
  | 0, _ => .diverge
  | fuel + 1, remaining =>
    if remaining > 0 then
      let chunk := min s remaining
      match splitGo s fuel (remaining - chunk) with
      | .ok l => .ok (chunk :: l)
      | r => r
    else .ok []

/-- Model of `split_into_chunks`.  `if not split_minutes` is Python
truthiness: both `None` and `0` raise `ValueError`; a negative
`split_minutes` passes the check and makes the loop diverge. -/
def split_into_chunks (duration_minutes : Int) (split : Bool)
    (split_minutes : Option Int) : Res (List Int) :=
  if split = false then .ok [duration_minutes]
  else
    match split_minutes with
    | none => .error "ValueError: split_minutes required when split is True"
    | some s =>
      if s = 0 then .error "ValueError: split_minutes required when split is True"
      else splitGo s (duration_minutes.toNat + 1) duration_minutes

/-! ### Preferences -/

/-- A non-empty preferences dict.  `timezone` is the fixed offset of a
valid IANA zone; `none` models an absent or invalid name (both fall back
to the server timezone in `_get_local_tz`).  Rank fields model the six
`*_rank` keys (`none` = key absent).  `wake_time`/`bed_time` are parsed
microseconds-of-day. -/
structure Prefs where
  timezone : Option Int
  blackout_days : Option (List String)
  early_morning_rank : Option Int
  late_morning_rank : Option Int
  afternoon_rank : Option Int
  evening_rank : Option Int
  night_rank : Option Int
  late_night_rank : Option Int
  wake_time : Option Int
  bed_time : Option Int
deriving Repr, DecidableEq

/-- The six fixed time-of-day bands, in source order. -/
def bandEarlyMorning : Int × Int := (5 * usPerHour, 9 * usPerHour)

def bandLateMorning : Int × Int := (9 * usPerHour, 12 * usPerHour)

def bandAfternoon : Int × Int := (12 * usPerHour, 16 * usPerHour)

def bandEvening : Int × Int := (16 * usPerHour, 20 * usPerHour)

def bandNight : Int × Int := (20 * usPerHour, 0)

def bandLateNight : Int × Int := (0, 5 * usPerHour)

/-- Model of `convert_time_of_day_rankings` for a truthy (non-empty)
preferences dict: each band gets `int(preferences[key])` when its key is
present, else rank 0; the list is stably sorted by rank ascending. -/
def convert_time_of_day_rankings (p : Prefs) : List (Int × (Int × Int)) :=
  pySorted (fun a b => decide (a.1 ≤ b.1))
    [ (p.early_morning_rank.getD 0, bandEarlyMorning),
      (p.late_morning_rank.getD 0, bandLateMorning),
      (p.afternoon_rank.getD 0, bandAfternoon),
      (p.evening_rank.getD 0, bandEvening),
      (p.night_rank.getD 0, bandNight),
      (p.late_night_rank.getD 0, bandLateNight) ]

/-- `WEEKDAY_MAP` lookup. -/
def weekdayOfString (s : String) : Option Int :=
  if s = "mon" ∨ s = "monday" then some 0
  else if s = "tue" ∨ s = "tuesday" then some 1
  else if s = "wed" ∨ s = "wednesday" then some 2
  else if s = "thu" ∨ s = "thursday" then some 3
  else if s = "fri" ∨ s = "friday" then some 4
  else if s = "sat" ∨ s = "saturday" then some 5
  else if s = "sun" ∨ s = "sunday" then some 6
  else none

/-- Model of `convert_blackout_days`: keys not in `WEEKDAY_MAP` are
skipped; a missing `blackout_days` entry gives `[]`. -/
def convert_blackout_days (p : Prefs) : List Int :=
  match p.blackout_days with
  | none => []
  | some days => days.filterMap weekdayOfString

/-- The per-chunk preference dict (`chunk_preferences`) built inside
`schedule_events` and passed to `_form_candidates` /
`schedule_single_event`. -/
structure ChunkPrefs where
  blackout_days : List Int
  time_of_day_ranks : List (Int × (Int × Int))
  wake_time : Option Int
  bed_time : Option Int
  local_tz : Int
  randomize : Bool

/-! ### Candidate generation -/

/-- One iteration of the day loop in
`generate_candidate_windows_for_event`: the day's clock-time span
(defaulting to the full day), intersected with the window and clamped to
wake/bed when present (a bed time at or before the wake time rolls over
to the next day). -/
def candidateForDay (ev : Event) (ws we : Dt) (wake bed : Option Int)
    (localTz : Option Int) (systemTz : Int) (d : Int) : Option (Dt × Dt) :=
  let dayStart := to_datetime d (ev.time_start.getD 0) localTz systemTz
  let dayEnd := to_datetime d (ev.time_end.getD timeMax) localTz systemTz
  let slotS := dtMax dayStart ws
  let slotE := dtMin dayEnd we
  let wakeDt : Option Dt := wake.map (fun w => to_datetime d w localTz systemTz)
  let bedDt : Option Dt :=
    match bed with
    | none => none
    | some b =>
      let bd := to_datetime d b localTz systemTz
      match wakeDt with
      | some w => some (if bd.instant ≤ w.instant then bd.addMicros usPerDay else bd)
      | none => some bd
  let slotS2 := match wakeDt with | some w => dtMax slotS w | none => slotS
  let slotE2 := match bedDt with | some b => dtMin slotE b | none => slotE
  if slotS2.instant < slotE2.instant then some (slotS2, slotE2) else none

/-- The `while d <= end_date` loop, with fuel (one unit per day). -/
def genGo (ev : Event) (ws we : Dt) (wake bed : Option Int) (localTz : Option Int)
    (systemTz : Int) (endDate : Int) : Nat → Int → List (Dt × Dt)
  | 0, _ => []
  | fuel + 1, d =>
    if d > endDate then []
    else
      match candidateForDay ev ws we wake bed localTz systemTz d with
      | some c => c :: genGo ev ws we wake bed localTz systemTz endDate fuel (d + 1)
      | none => genGo ev ws we wake bed localTz systemTz endDate fuel (d + 1)

/-- Model of `generate_candidate_windows_for_event`: scan the request's
date range (defaulting to the window's calendar dates, read in the
representation timezones of `ws`/`we`). -/
def generate_candidate_windows_for_event (ev : Event) (ws we : Dt)
    (wake bed : Option Int) (localTz : Option Int) (systemTz : Int) :
    List (Dt × Dt) :=
  let startDate := ev.date_start.getD ws.date
  let endDate := ev.date_end.getD we.date
  genGo ev ws we wake bed localTz systemTz endDate
    ((endDate - startDate).toNat + 1) startDate

/-! ### Preference ranking -/

/-- The score of one candidate in `score_and_sort_candidates`.  The
source computes `weight * overlap_minutes` in floating point; the model
computes `weight * overlap_microseconds` exactly, which is the same
quantity scaled by the constant 6e7 (no claim depends on score values,
only on the induced order). -/
def bandScore (candS candE : Dt) (ranks : List (Int × (Int × Int)))
    (localTz systemTz : Int) : Int :=
  let total : Int := ranks.length
  (ranks.enum.foldl (fun acc p =>
    let idx : Int := p.1
    let ts := p.2.2.1
    let te := p.2.2.2
    let weight := total - idx
    let day := if localTz ≠ 0 then (candS.astimezone localTz).date else candS.date
    let winS := to_datetime day ts (some localTz) systemTz
    let winE0 := to_datetime day te (some localTz) systemTz
    let winE := if winE0.instant ≤ winS.instant then winE0.addMicros usPerDay else winE0
    let ovS := dtMax candS winS
    let ovE := dtMin candE winE
    acc + weight * max 0 (ovE.instant - ovS.instant)) 0)

/-- Model of `score_and_sort_candidates`: sort by score descending,
ties by earliest start (the key `(-score, start)`, stable sort). -/
def score_and_sort_candidates (cands : List (Dt × Dt))
    (ranks : List (Int × (Int × Int))) (localTz systemTz : Int) :
    List (Dt × Dt) :=
  let scored := cands.map (fun c => (bandScore c.1 c.2 ranks localTz systemTz, c))
  let sorted := pySorted (fun a b =>
    decide (b.1 < a.1) || (decide (a.1 = b.1) && decide (a.2.1.instant ≤ b.2.1.instant))) scored
  sorted.map (fun x => x.2)

/-- One band attempt inside `find_preferred_subwindow`: intersect the
band's absolute window on `day` with the candidate, clamp to wake/bed,
and return the leading sub-interval of length `needed` when it fits.
(The midnight-crossing test here compares the clock times `t_end <=
t_start`, unlike the instant comparison used in scoring.) -/
def fpsBand (candS candE : Dt) (needed : Int) (dayWake dayBed : Option Dt)
    (day : Int) (localTz systemTz : Int) (band : Int × (Int × Int)) :
    Option (Dt × Dt) :=
  let ts := band.2.1
  let te := band.2.2
  let winS := to_datetime day ts (some localTz) systemTz
  let winE0 := to_datetime day te (some localTz) systemTz
  let _winE := if te ≤ ts then winE0.addMicros usPerDay else winE0
  let ovS0 := dtMax candS winS
  let ovE0 := dtMin candE _winE
  let ovS := match dayWake with | some w => dtMax ovS0 w | none => ovS0
  let ovE := match dayBed with | some b => dtMin ovE0 b | none => ovE0
  if needed ≤ ovE.instant - ovS.instant then some (ovS, ovS.addMicros needed) else none

/-- One day of `find_preferred_subwindow`: the day is read in the local
timezone (the `if local_tz` test is always true: a tzinfo object is
truthy), wake/bed are materialized for that day, and the ranked bands
are tried in list order. -/
def fpsDay (candS candE : Dt) (needed : Int) (ranks : List (Int × (Int × Int)))
    (wake bed : Option Int) (localTz systemTz : Int) (offset : Nat) :
    Option (Dt × Dt) :=
  let day := (candS.astimezone localTz).date + (offset : Int)
  let dayWake := wake.map (fun w => to_datetime day w (some localTz) systemTz)
  let dayBed0 := bed.map (fun b => to_datetime day b (some localTz) systemTz)
  let dayBed := match dayWake, dayBed0 with
    | some w, some b => some (if b.instant ≤ w.instant then b.addMicros usPerDay else b)
    | _, b => b
  ranks.findSome? (fpsBand candS candE needed dayWake dayBed day localTz systemTz)

/-- Model of `find_preferred_subwindow`. -/
def find_preferred_subwindow (candS candE : Dt) (needed : Int)
    (ranks : List (Int × (Int × Int))) (wake bed : Option Int)
    (localTz systemTz : Int) : Option (Dt × Dt) :=
  if ranks = [] then none
  else
    let numDays := max 0 (candE.date - candS.date)
    (List.range (numDays.toNat + 1)).findSome?
      (fpsDay candS candE needed ranks wake bed localTz systemTz)

/-! ### Placement -/

/-- An output row of the engine (a `ScheduledEvent` dict).  The Python
`end` key is called `stop` (`end` is a Lean keyword); the `uid` field
is omitted (no claim mentions it). -/
structure ScheduledEvent where
  name : String
  description : String
  start : Option Dt
  stop : Option Dt
  event_type : String
  priority : String
  unscheduled : Bool
  requested_minutes : Option Int
deriving Repr, DecidableEq

/-- Result of one `schedule_single_event` call: the returned
`(start, end)` pair plus the mutated busy and output lists. -/
structure PlaceOut where
  placed : Option (Dt × Dt)
  busy : List (Dt × Dt)
  scheduled : List ScheduledEvent
deriving Repr, DecidableEq

/-- Committing a placement: append the placed row, append the interval
to the busy set, and re-merge (`current_busy[:] = merge_busy_slots`). -/
def commitPlacement (ev : Event) (busy : List (Dt × Dt))
    (scheduled : List ScheduledEvent) (sDt eDt : Dt) : PlaceOut :=
  { placed := some (sDt, eDt),
    busy := merge_busy_slots (busy ++ [(sDt, eDt)]),
    scheduled := scheduled ++
      [{ name := ev.title, description := ev.description,
         start := some sDt, stop := some eDt, event_type := ev.event_type,
         priority := ev.priority, unscheduled := false,
         requested_minutes := none }] }

/-- The candidate loop of `schedule_single_event`: skip candidates that
are too small, try the preferred sub-window when rankings exist, else
take the candidate's leading sub-interval if it stays inside; on
exhaustion append an `unscheduled` placeholder. -/
def ssLoop (ev : Event) (chunkMinutes needed : Int) (busy : List (Dt × Dt))
    (scheduled : List ScheduledEvent) (prefs : ChunkPrefs) (systemTz : Int) :
    List (Dt × Dt) → PlaceOut
  | [] =>
    { placed := none, busy := busy,
      scheduled := scheduled ++
        [{ name := ev.title, description := ev.description,
           start := none, stop := none, event_type := ev.event_type,
           priority := ev.priority, unscheduled := true,
           requested_minutes := some chunkMinutes }] }
  | (cS, cE) :: rest =>
    if cE.instant - cS.instant < needed then
      ssLoop ev chunkMinutes needed busy scheduled prefs systemTz rest
    else
      let sub := if prefs.time_of_day_ranks ≠ [] then
          find_preferred_subwindow cS cE needed prefs.time_of_day_ranks
            prefs.wake_time prefs.bed_time prefs.local_tz systemTz
        else none
      match sub with
      | some (sDt, eDt) => commitPlacement ev busy scheduled sDt eDt
      | none =>
        let sDt := cS
        let eDt := cS.addMicros needed
        if eDt.instant > cE.instant then
          ssLoop ev chunkMinutes needed busy scheduled prefs systemTz rest
        else commitPlacement ev busy scheduled sDt eDt

/-- Model of `schedule_single_event`.  `random.shuffle` is modelled by
the caller-supplied `shuffle` function (applied exactly when
`randomize` is set and the candidate list is non-empty). -/
def schedule_single_event (shuffle : List (Dt × Dt) → List (Dt × Dt))
    (ev : Event) (chunk_minutes : Int) (busy : List (Dt × Dt))
    (scheduled : List ScheduledEvent) (candidates : List (Dt × Dt))
    (prefs : ChunkPrefs) (systemTz : Int) : PlaceOut :=
  let cands := if prefs.randomize ∧ candidates ≠ [] then shuffle candidates else candidates
  ssLoop ev chunk_minutes (chunk_minutes * usPerMinute) busy scheduled prefs systemTz cands

/-- Model of `_form_candidates`: re-represent everything in the local
timezone, invert the merged busy set over the window, generate per-day
candidates in each free slot, filter by the blackout test
`cand[0].date().weekday() not in blackout` (note: the date of the
candidate-start in its own representation timezone), then rank-sort or
chronologically sort.  (The `isinstance(..., date)` coercion branches
are dead in the engine — every call site passes datetimes — and are
omitted.) -/
def _form_candidates (busy_slots : List (Dt × Dt)) (window_start window_end : Dt)
    (ev : Event) (prefs : ChunkPrefs) (systemTz : Int) : List (Dt × Dt) :=
  let localTz := prefs.local_tz
  let ws := window_start.astimezone localTz
  let we := window_end.astimezone localTz
  let busy := busy_slots.map (fun p => (p.1.astimezone localTz, p.2.astimezone localTz))
  let free := invert_slots (merge_busy_slots busy) ws we
  let candidates := (free.map (fun f =>
    (generate_candidate_windows_for_event ev f.1 f.2 prefs.wake_time prefs.bed_time
        (some localTz) systemTz).filter
      (fun c => prefs.blackout_days = [] ∨ weekday c.1.date ∉ prefs.blackout_days))).flatten
  if prefs.time_of_day_ranks ≠ [] then
    score_and_sort_candidates candidates prefs.time_of_day_ranks localTz systemTz
  else
    pySorted leStart candidates

/-! ### The main routine `schedule_events` -/

/-- Run-wide context: the scheduling window, the chunk preferences
(identical for every chunk), the server timezone and the shuffle
function. -/
structure Ctx where
  shuffle : List (Dt × Dt) → List (Dt × Dt)
  systemTz : Int
  windowStart : Dt
  windowEnd : Dt
  prefs : ChunkPrefs

/-- The evolving run state: the working busy set and the output list. -/
structure EngineState where
  busy : List (Dt × Dt)
  scheduled : List ScheduledEvent

/-- One placement attempt against the current state: form candidates
from the current busy set and call `schedule_single_event`. -/
def recurAttempt (ctx : Ctx) (st : EngineState) (ev : Event) (ck : Int)
    (wStart wEnd : Dt) : PlaceOut :=
  let cands := _form_candidates st.busy wStart wEnd ev ctx.prefs ctx.systemTz
  schedule_single_event ctx.shuffle ev ck st.busy st.scheduled cands ctx.prefs ctx.systemTz

/-- One weekly occurrence of the recurrence ladder: (1) the same
wall-clock time (of the first placement's representation) on the new
date, (2) anywhere on that calendar day (server-timezone bounds:
`to_datetime` without a tz argument), (3) anywhere in the ±3-day
window.  Each failing attempt appends its own `unscheduled`
placeholder inside `schedule_single_event`. -/
def recurBody (ctx : Ctx) (ev : Event) (ck : Int) (s0 e0 : Dt) (occ : Int)
    (st : EngineState) : EngineState :=
  let tS := s0.timeOfDay
  let tE := e0.timeOfDay
  let candStart := to_datetime occ tS (some ctx.prefs.local_tz) ctx.systemTz
  let candEnd := candStart.addMicros (ck * usPerMinute)
  let ev1 := { ev with
               date_start := some occ, date_end := some occ,
               time_start := some tS, time_end := some tE }
  let r1 := recurAttempt ctx st ev1 ck candStart candEnd
  let st1 : EngineState := ⟨r1.busy, r1.scheduled⟩
  match r1.placed with
  | some _ => st1
  | none =>
    let dayStart := to_datetime occ 0 none ctx.systemTz
    let dayEnd := to_datetime occ timeMax none ctx.systemTz
    let ev2 := { ev with date_start := some occ, date_end := some occ }
    let r2 := recurAttempt ctx st1 ev2 ck dayStart dayEnd
    let st2 : EngineState := ⟨r2.busy, r2.scheduled⟩
    match r2.placed with
    | some _ => st2
    | none =>
      let weekStart := to_datetime (occ - 3) 0 none ctx.systemTz
      let weekEnd := to_datetime (occ + 3) timeMax none ctx.systemTz
      let ev3 := { ev with date_start := some (occ - 3), date_end := some (occ + 3) }
      let r3 := recurAttempt ctx st2 ev3 ck weekStart weekEnd
      ⟨r3.busy, r3.scheduled⟩

/-- The `while occurrence_date <= recurrence_end_date` loop, one week
per iteration, with fuel (the fuel passed by `processChunk` always
suffices, so exhaustion coincides with the loop guard failing). -/
def recurLoop (ctx : Ctx) (ev : Event) (ck : Int) (s0 e0 : Dt) (ru : Int) :
    Nat → Int → EngineState → EngineState
  | 0, _, st => st
  | fuel + 1, occ, st =>
    if occ > ru then st
    else recurLoop ctx ev ck s0 e0 ru fuel (occ + 7) (recurBody ctx ev ck s0 e0 occ st)

/-- One chunk of the main loop: place the chunk, then—when the request
is recurring with a recurrence end date—run the weekly recurrence
ladder.  When the base placement failed, `start_time` is `None` and
`next_start_dt.date()` raises `AttributeError`. -/
def processChunk (ctx : Ctx) (ev : Event) (st : EngineState) (ck : Int) :
    Res EngineState :=
  let cands := _form_candidates st.busy ctx.windowStart ctx.windowEnd ev ctx.prefs ctx.systemTz
  let r := schedule_single_event ctx.shuffle ev ck st.busy st.scheduled cands ctx.prefs ctx.systemTz
  let st1 : EngineState := ⟨r.busy, r.scheduled⟩
  match ev.recurring, ev.recurring_until with
  | true, some ru =>
    match r.placed with
    | none => .error "AttributeError: NoneType object has no attribute date"
    | some (s0, e0) =>
      let occ0 := s0.date + 7
      .ok (recurLoop ctx ev ck s0 e0 ru ((ru - occ0).toNat + 1) occ0 st1)
  | _, _ => .ok st1

/-- One event of the main loop: split into chunks, then place each. -/
def processEvent (ctx : Ctx) (st : EngineState) (ev : Event) : Res EngineState := do
  let chunks ← split_into_chunks ev.duration_minutes ev.split ev.split_minutes
  chunks.foldlM (processChunk ctx ev) st

/-- `PRIORITY_ORDER.get(priority, 1)` from `constants.py`. -/
def PRIORITY_ORDER (s : String) : Int :=
  if s = "high" then 0 else if s = "medium" then 1 else if s = "low" then 2 else 1

/-- The sort key `(priority_rank, -duration_minutes)` of the main loop. -/
def eventSortLE (a b : Event) : Bool :=
  decide (PRIORITY_ORDER a.priority < PRIORITY_ORDER b.priority) ||
  (decide (PRIORITY_ORDER a.priority = PRIORITY_ORDER b.priority) &&
   decide (b.duration_minutes ≤ a.duration_minutes))

/-- Model of `get_busy_from_imported`: keep events with both endpoints
and `end > start`, then merge. -/
def get_busy_from_imported (imported : List (Option Dt × Option Dt)) :
    List (Dt × Dt) :=
  merge_busy_slots (imported.filterMap (fun p =>
    match p with
    | (some s, some e) => if e.instant > s.instant then some (s, e) else none
    | _ => none))

/-- Model of `schedule_events`, the main scheduling routine.
`shuffle` models `random.shuffle`; `systemTz` is the server timezone
(`get_current_timezone`, also the `_get_local_tz` fallback); `now`
models `datetime.now(UTC)` (used only when `window_start` is `None`);
`preferences = none` models a `None` or empty (falsy) preferences dict. -/
def schedule_events (shuffle : List (Dt × Dt) → List (Dt × Dt)) (systemTz : Int)
    (now : Dt) (event_requests_raw : List RawEvent)
    (imported_events : List (Option Dt × Option Dt))
    (window_start window_end : Option Dt) (preferences : Option Prefs)
    (randomize : Bool) : Res (List ScheduledEvent) := do
  let ws : Dt := match window_start with
    | none => now
    | some w => ⟨w.instant, 0⟩
  let we : Dt := match window_end with
    | none => ws.addMicros (31 * usPerDay)
    | some w => ⟨w.instant, 0⟩
  let busy := get_busy_from_imported imported_events
  let current_busy := merge_busy_slots busy
  let events ← event_requests_raw.mapM expand_event_request
  let events_sorted := pySorted eventSortLE events
  let blackout := match preferences with | some p => convert_blackout_days p | none => []
  let ranks := match preferences with | some p => convert_time_of_day_rankings p | none => []
  let wake := preferences.bind (fun p => p.wake_time)
  let bed := preferences.bind (fun p => p.bed_time)
  let localTz := match preferences with
    | some p => p.timezone.getD systemTz
    | none => systemTz
  let cprefs : ChunkPrefs :=
    { blackout_days := blackout, time_of_day_ranks := ranks,
      wake_time := wake, bed_time := bed, local_tz := localTz,
      randomize := randomize }
  let ctx : Ctx :=
    { shuffle := shuffle, systemTz := systemTz, windowStart := ws,
      windowEnd := we, prefs := cprefs }
  let final ← events_sorted.foldlM (processEvent ctx) ⟨current_busy, []⟩
  return final.scheduled

/-! ### Predicates used in the theorem statements -/

/-- `x` (an instant) lies inside some interval of `l`. -/
def covers (l : List (Dt × Dt)) (x : Int) : Prop :=
  ∃ p ∈ l, p.1.instant ≤ x ∧ x < p.2.instant

instance (l : List (Dt × Dt)) (x : Int) : Decidable (covers l x) := by
  unfold covers; infer_instance

/-- The merged-busy-set invariant: entries sorted by start, and any two
entries (in order) separated by strictly more than the 1-second
tolerance. -/
def MergedInv (l : List (Dt × Dt)) : Prop :=
  l.Pairwise (fun a b => a.1.instant ≤ b.1.instant ∧ a.2.instant + tolerance < b.1.instant)

instance (l : List (Dt × Dt)) : Decidable (MergedInv l) := by
  unfold MergedInv; infer_instance

/-- Two placed output rows overlap in time. -/
def placedOverlaps (a b : ScheduledEvent) : Prop :=
  ∃ sa ea sb eb, a.start = some sa ∧ a.stop = some ea ∧
    b.start = some sb ∧ b.stop = some eb ∧
    max sa.instant sb.instant < min ea.instant eb.instant

/-- Well-formed intervals (the §3 `Interval` invariant `end > start`). -/
def WF (l : List (Dt × Dt)) : Prop := ∀ p ∈ l, p.1.instant < p.2.instant

instance (l : List (Dt × Dt)) : Decidable (WF l) := by
  unfold WF; infer_instance

/-- The run invariant of the placement engine: the working busy set is
merged, every placed output row's interval is covered by the busy set,
and no two output rows overlap. -/
def GoodState (st : EngineState) : Prop :=
  MergedInv st.busy ∧
  (∀ ev ∈ st.scheduled, ∀ s e : Dt, ev.start = some s → ev.stop = some e →
    ∀ x : Int, s.instant ≤ x → x < e.instant → covers st.busy x) ∧
  st.scheduled.Pairwise (fun a b => ¬ placedOverlaps a b)

/-! ### Concrete runs used to settle the scenario claims -/

/-- A plain 60-minute request with no constraints. -/
def rawBase : RawEvent :=
  { title := "t", description := "", duration_minutes := some (some 60),
    priority := "medium", event_type := "Study Session",
    date_start := none, date_end := none, time_start := none, time_end := none,
    split := false, split_minutes := none, recurring := false,
    recurring_until := none }

/-- Scenario A (C5): busy 09:00–10:00 on day 0, window day 0
00:00–23:59, one 60-minute request, no preferences. -/
def runScenarioA : Res (List ScheduledEvent) :=
  schedule_events id 0 ⟨0, 0⟩ [rawBase]
    [(some ⟨9 * usPerHour, 0⟩, some ⟨10 * usPerHour, 0⟩)]
    (some ⟨0, 0⟩) (some ⟨24 * usPerHour - usPerMinute, 0⟩) none false

/-- The row Scenario A actually produces: placed at 00:00–01:00. -/
def scenarioARow : ScheduledEvent :=
  { name := "t", description := "", start := some ⟨0, 0⟩,
    stop := some ⟨usPerHour, 0⟩, event_type := "Study Session",
    priority := "medium", unscheduled := false, requested_minutes := none }

/-- A weekly-recurring 60-minute request, recurring until day 7. -/
def rawRec : RawEvent :=
  { rawBase with recurring := true, recurring_until := some (some 7) }

/-- C3's failing input: the recurring request in a 30-minute window, so
its first chunk cannot fit. -/
def runRecTooSmall : Res (List ScheduledEvent) :=
  schedule_events id 0 ⟨0, 0⟩ [rawRec] []
    (some ⟨0, 0⟩) (some ⟨30 * usPerMinute, 0⟩) none false

/-- C4's run: the recurring request placed on day 0, with days 4–11
fully busy so that all three fallback attempts of the week-7
occurrence fail. -/
def runRecBlockedWeek : Res (List ScheduledEvent) :=
  schedule_events id 0 ⟨0, 0⟩ [rawRec]
    [(some ⟨4 * usPerDay, 0⟩, some ⟨11 * usPerDay, 0⟩)]
    (some ⟨0, 0⟩) (some ⟨1 * usPerDay, 0⟩) none false

/-- The placeholder row produced by each failed recurrence attempt of
`runRecBlockedWeek`. -/
def recPlaceholderRow : ScheduledEvent :=
  { name := "t", description := "", start := none, stop := none,
    event_type := "Study Session", priority := "medium",
    unscheduled := true, requested_minutes := some 60 }

/-- C2's counterexample input: a request with `duration_minutes = 0`
(non-positive). -/
def rawZeroDuration : RawEvent := { rawBase with duration_minutes := some (some 0) }

/-- A run on the zero-duration request: it completes without any error. -/
def runZeroDuration : Res (List ScheduledEvent) :=
  schedule_events id 0 ⟨0, 0⟩ [rawZeroDuration] []
    (some ⟨0, 0⟩) (some ⟨1 * usPerDay, 0⟩) none false

/-- C9's preferences: timezone UTC+10, blackout Mondays, nothing else. -/
def prefsBlackoutMonday : Prefs :=
  { timezone := some (10 * usPerHour), blackout_days := some ["monday"],
    early_morning_rank := none, late_morning_rank := none,
    afternoon_rank := none, evening_rank := none, night_rank := none,
    late_night_rank := none, wake_time := none, bed_time := none }

/-- C9's request: constrained to day 4 (a Monday), from 08:00 local. -/
def rawMondayMorning : RawEvent :=
  { rawBase with
    date_start := some (some 4), date_end := some (some 4),
    time_start := some (some (8 * usPerHour)) }

/-- C9's run: window days 3–5 (UTC), blackout-Monday preferences. -/
def runBlackoutMonday : Res (List ScheduledEvent) :=
  schedule_events id 0 ⟨0, 0⟩ [rawMondayMorning] []
    (some ⟨3 * usPerDay, 0⟩) (some ⟨5 * usPerDay, 0⟩)
    (some prefsBlackoutMonday) false

/-- The row C9's run produces: placed at instant 338400000000 (day 3,
22:00 UTC), whose wall clock in the UTC+10 preference timezone is day 4
(Monday) 08:00. -/
def blackoutMondayRow : ScheduledEvent :=
  { name := "t", description := "", start := some ⟨338400000000, 0⟩,
    stop := some ⟨342000000000, 0⟩, event_type := "Study Session",
    priority := "medium", unscheduled := false, requested_minutes := none }

/-- The row `runZeroDuration` produces: a zero-length placement. -/
def zeroDurationRow : ScheduledEvent :=
  { name := "t", description := "", start := some ⟨0, 0⟩,
    stop := some ⟨0, 0⟩, event_type := "Study Session",
    priority := "medium", unscheduled := false, requested_minutes := none }

/-- A request whose `date_start` string is present but unparsable. -/
def rawUnparsableDate : RawEvent := { rawBase with date_start := some none }

/-- Scenario C's request: `split = true` with `split_minutes` omitted. -/
def rawSplitNoMinutes : RawEvent := { rawBase with split := true }

/-- The expansion of `rawBase` (used for component-level witnesses). -/
def evPlain : Event :=
  { title := "t", description := "", duration_minutes := 60,
    priority := "medium", event_type := "Study Session",
    date_start := none, date_end := none, time_start := none, time_end := none,
    split := false, split_minutes := none, recurring := false,
    recurring_until := none }

/-- The expansion of `rawMondayMorning`. -/
def evMonday : Event :=
  { title := "t", description := "", duration_minutes := 60,
    priority := "medium", event_type := "Study Session",
    date_start := some 4, date_end := some 4,
    time_start := some (8 * usPerHour), time_end := none, split := false,
    split_minutes := none, recurring := false, recurring_until := none }

/-- Chunk preferences with no constraints (server timezone UTC). -/
def cprefsPlain : ChunkPrefs :=
  { blackout_days := [], time_of_day_ranks := [], wake_time := none,
    bed_time := none, local_tz := 0, randomize := false }

/-- Chunk preferences with blackout Mondays in timezone UTC+10. -/
def cprefsBlackout : ChunkPrefs :=
  { blackout_days := [0], time_of_day_ranks := [], wake_time := none,
    bed_time := none, local_tz := 10 * usPerHour, randomize := false }

end Scheduler

namespace Scheduler

/-! ## Theorems -/

/-! ### Properties of `pySorted` -/

theorem mem_pyInsert {le : α → α → Bool} {x a : α} {l : List α} :
    a ∈ pyInsert le x l ↔ a = x ∨ a ∈ l := by
  induction l with
  | nil => simp [pyInsert]
  | cons y ys ih =>
    simp only [pyInsert]
    by_cases h : le x y = true
    · rw [if_pos h]
      simp only [List.mem_cons]
    · rw [if_neg h]
      simp only [List.mem_cons, ih]
      tauto

theorem mem_pySorted {le : α → α → Bool} {a : α} {l : List α} :
    a ∈ pySorted le l ↔ a ∈ l := by
  induction l with
  | nil => simp [pySorted]
  | cons x xs ih => simp [pySorted, mem_pyInsert, ih]

theorem length_pyInsert (le : α → α → Bool) (x : α) (l : List α) :
    (pyInsert le x l).length = l.length + 1 := by
  induction l with
  | nil => simp [pyInsert]
  | cons y ys ih =>
    simp only [pyInsert]
    by_cases h : le x y = true <;> simp [h, ih]

theorem length_pySorted (le : α → α → Bool) (l : List α) :
    (pySorted le l).length = l.length := by
  induction l with
  | nil => simp [pySorted]
  | cons x xs ih => simp [pySorted, length_pyInsert, ih]

theorem pairwise_pyInsert {le : α → α → Bool}
    (htot : ∀ a b, le a b = true ∨ le b a = true)
    (htrans : ∀ a b c, le a b = true → le b c = true → le a c = true)
    {x : α} {l : List α} (h : l.Pairwise (fun a b => le a b = true)) :
    (pyInsert le x l).Pairwise (fun a b => le a b = true) := by
  induction l with
  | nil => simp [pyInsert]
  | cons y ys ih =>
    rcases h with _ | ⟨hy, hys⟩
    simp only [pyInsert]
    by_cases hxy : le x y = true
    · rw [if_pos hxy]
      refine List.Pairwise.cons ?_ (List.Pairwise.cons hy hys)
      intro b hb
      rcases List.mem_cons.mp hb with rfl | hb
      · exact hxy
      · exact htrans _ _ _ hxy (hy b hb)
    · rw [if_neg hxy]
      refine List.Pairwise.cons ?_ (ih hys)
      intro b hb
      rcases mem_pyInsert.mp hb with rfl | hb
      · rcases htot b y with h | h
        · exact absurd h hxy
        · exact h
      · exact hy b hb

theorem pairwise_pySorted {le : α → α → Bool}
    (htot : ∀ a b, le a b = true ∨ le b a = true)
    (htrans : ∀ a b c, le a b = true → le b c = true → le a c = true)
    (l : List α) :
    (pySorted le l).Pairwise (fun a b => le a b = true) := by
  induction l with
  | nil => simp [pySorted]
  | cons x xs ih => exact pairwise_pyInsert htot htrans ih

theorem pySorted_of_pairwise {le : α → α → Bool} :
    ∀ {l : List α}, l.Pairwise (fun a b => le a b = true) → pySorted le l = l
  | [], _ => rfl
  | x :: xs, h => by
    rcases h with _ | ⟨hx, hxs⟩
    simp only [pySorted, pySorted_of_pairwise hxs]
    cases xs with
    | nil => rfl
    | cons y ys => simp [pyInsert, hx y (by simp)]

theorem leStart_total (a b : Dt × Dt) : leStart a b = true ∨ leStart b a = true := by
  simpa [leStart] using Int.le_total a.1.instant b.1.instant

theorem leStart_trans (a b c : Dt × Dt) :
    leStart a b = true → leStart b c = true → leStart a c = true := by
  simp only [leStart, decide_eq_true_eq]
  omega

/-! ### The merged invariant of `merge_busy_slots` -/

theorem mergeGo_start_le {l : List (Dt × Dt)} :
    ∀ {curS curE : Dt},
      l.Pairwise (fun a b => a.1.instant ≤ b.1.instant) →
      (∀ p ∈ l, curS.instant ≤ p.1.instant) →
      ∀ q ∈ mergeGo curS curE l, curS.instant ≤ q.1.instant := by
  induction l with
  | nil =>
    intro curS curE _ _ q hq
    simp only [mergeGo, List.mem_singleton] at hq
    simp [hq]
  | cons p rest ih =>
    intro curS curE hsorted hlow q hq
    obtain ⟨s, e⟩ := p
    rcases hsorted with _ | ⟨hhead, htail⟩
    simp only [mergeGo] at hq
    split at hq
    · exact ih htail (fun p hp => hlow p (List.mem_cons_of_mem _ hp)) q hq
    · rcases List.mem_cons.mp hq with rfl | hq
      · exact le_refl _
      · have hs : curS.instant ≤ s.instant := hlow (s, e) (by simp)
        have h2 : s.instant ≤ q.1.instant := ih htail (fun p hp => hhead p hp) q hq
        omega

theorem mergeGo_merged {l : List (Dt × Dt)} :
    ∀ {curS curE : Dt},
      l.Pairwise (fun a b => a.1.instant ≤ b.1.instant) →
      (∀ p ∈ l, curS.instant ≤ p.1.instant) →
      MergedInv (mergeGo curS curE l) := by
  induction l with
  | nil =>
    intro curS curE _ _
    simp [mergeGo, MergedInv]
  | cons p rest ih =>
    intro curS curE hsorted hlow
    obtain ⟨s, e⟩ := p
    rcases hsorted with _ | ⟨hhead, htail⟩
    simp only [mergeGo]
    split
    · exact ih htail (fun p hp => hlow p (List.mem_cons_of_mem _ hp))
    · rename_i hgap
      refine List.Pairwise.cons ?_ (ih htail (fun p hp => hhead p hp))
      intro q hq
      have hq1 : s.instant ≤ q.1.instant :=
        mergeGo_start_le htail (fun p hp => hhead p hp) q hq
      have hs : curS.instant ≤ s.instant := hlow (s, e) (by simp)
      show curS.instant ≤ q.1.instant ∧ curE.instant + tolerance < q.1.instant
      omega

theorem merge_busy_slots_mergedInv (X : List (Dt × Dt)) :
    MergedInv (merge_busy_slots X) := by
  have hp : (pySorted leStart X).Pairwise (fun a b => a.1.instant ≤ b.1.instant) := by
    refine (pairwise_pySorted leStart_total leStart_trans X).imp ?_
    intro a b h
    simpa [leStart] using h
  unfold merge_busy_slots
  cases hs : pySorted leStart X with
  | nil => simp [MergedInv]
  | cons p rest =>
    obtain ⟨s, e⟩ := p
    rw [hs] at hp
    rcases hp with _ | ⟨hhead, htail⟩
    exact mergeGo_merged htail hhead

theorem mergeGo_of_gap {l : List (Dt × Dt)} :
    ∀ {curS curE : Dt},
      (∀ p ∈ l, curE.instant + tolerance < p.1.instant) →
      MergedInv l →
      mergeGo curS curE l = (curS, curE) :: l := by
  induction l with
  | nil => intro curS curE _ _; rfl
  | cons p rest ih =>
    intro curS curE hgap hinv
    obtain ⟨s, e⟩ := p
    rcases hinv with _ | ⟨hhead, htail⟩
    have hs : curE.instant + tolerance < s.instant := hgap (s, e) (by simp)
    simp only [mergeGo, if_neg (by omega : ¬ s.instant ≤ curE.instant + tolerance)]
    rw [ih (fun p hp => (hhead p hp).2) htail]

theorem merge_busy_slots_idem (X : List (Dt × Dt)) :
    merge_busy_slots (merge_busy_slots X) = merge_busy_slots X := by
  have hMinv : MergedInv (merge_busy_slots X) := merge_busy_slots_mergedInv X
  have hsame : pySorted leStart (merge_busy_slots X) = merge_busy_slots X := by
    refine pySorted_of_pairwise (hMinv.imp ?_)
    intro a b h
    simpa [leStart] using h.1
  conv_lhs => rw [merge_busy_slots.eq_def, hsame]
  cases hM : merge_busy_slots X with
  | nil => rfl
  | cons p rest =>
    obtain ⟨s, e⟩ := p
    rw [hM] at hMinv
    rcases hMinv with _ | ⟨hhead, htail⟩
    exact mergeGo_of_gap (fun p hp => (hhead p hp).2) htail

/-- C7: for every interval list `X`, `merge_busy_slots X` is sorted by
start with every pair of entries separated by strictly more than the
1-second tolerance (so no two entries overlap), the empty list maps to
the empty list, and merging is idempotent. -/
theorem c7_merge_busy_slots_spec (X : List (Dt × Dt)) :
    MergedInv (merge_busy_slots X) ∧
    (merge_busy_slots X).Pairwise
      (fun a b => ¬ (max a.1.instant b.1.instant < min a.2.instant b.2.instant)) ∧
    merge_busy_slots ([] : List (Dt × Dt)) = [] ∧
    merge_busy_slots (merge_busy_slots X) = merge_busy_slots X := by
  refine ⟨merge_busy_slots_mergedInv X, ?_, rfl, merge_busy_slots_idem X⟩
  refine (merge_busy_slots_mergedInv X).imp ?_
  intro a b h
  have : (0 : Int) < tolerance := by decide
  omega


/-! ### Properties of `invert_slots` -/

theorem dtMax_instant (a b : Dt) : (dtMax a b).instant = max a.instant b.instant := by
  unfold dtMax; split <;> omega

theorem dtMin_instant (a b : Dt) : (dtMin a b).instant = min a.instant b.instant := by
  unfold dtMin; split <;> omega

theorem covers_nil (x : Int) : ¬ covers [] x := by simp [covers]

theorem covers_cons {p : Dt × Dt} {l : List (Dt × Dt)} {x : Int} :
    covers (p :: l) x ↔ (p.1.instant ≤ x ∧ x < p.2.instant) ∨ covers l x := by
  simp only [covers, List.mem_cons]
  constructor
  · rintro ⟨q, rfl | hq, h⟩
    · exact Or.inl h
    · exact Or.inr ⟨q, hq, h⟩
  · rintro (h | ⟨q, hq, h⟩)
    · exact ⟨p, Or.inl rfl, h⟩
    · exact ⟨q, Or.inr hq, h⟩

theorem covers_append {l₁ l₂ : List (Dt × Dt)} {x : Int} :
    covers (l₁ ++ l₂) x ↔ covers l₁ x ∨ covers l₂ x := by
  simp only [covers, List.mem_append]
  constructor
  · rintro ⟨q, hq | hq, h⟩
    · exact Or.inl ⟨q, hq, h⟩
    · exact Or.inr ⟨q, hq, h⟩
  · rintro (⟨q, hq, h⟩ | ⟨q, hq, h⟩)
    · exact ⟨q, Or.inl hq, h⟩
    · exact ⟨q, Or.inr hq, h⟩

theorem covers_congr {l₁ l₂ : List (Dt × Dt)} (h : ∀ p, p ∈ l₁ ↔ p ∈ l₂) (x : Int) :
    covers l₁ x ↔ covers l₂ x := by
  unfold covers
  constructor
  · rintro ⟨q, hq, hx⟩; exact ⟨q, (h q).mp hq, hx⟩
  · rintro ⟨q, hq, hx⟩; exact ⟨q, (h q).mpr hq, hx⟩

theorem invertGo_covers_bounds {ws we : Dt} {l : List (Dt × Dt)} :
    ∀ {cur : Dt}, ws.instant ≤ cur.instant →
      ∀ x : Int, covers (invertGo ws we cur l) x →
        cur.instant ≤ x ∧ x < we.instant := by
  induction l with
  | nil =>
    intro cur hcur x hx
    simp only [invertGo] at hx
    split at hx
    · rcases covers_cons.mp hx with ⟨h1, h2⟩ | hx
      · exact ⟨h1, h2⟩
      · exact absurd hx (covers_nil x)
    · exact absurd hx (covers_nil x)
  | cons p rest ih =>
    intro cur hcur x hx
    obtain ⟨s, e⟩ := p
    simp only [invertGo] at hx
    split at hx
    · exact ih hcur x hx
    · rename_i hproc
      push_neg at hproc
      rcases covers_append.mp hx with hx | hx
      · split at hx
        · rename_i hemit
          rcases covers_cons.mp hx with ⟨h1, h2⟩ | hx
          · rw [dtMax_instant] at h2 hemit
            refine ⟨h1, ?_⟩
            omega
          · exact absurd hx (covers_nil x)
        · exact absurd hx (covers_nil x)
      · have hcur2 : ws.instant ≤ (dtMax cur (dtMin e we)).instant := by
          rw [dtMax_instant]
          omega
        have h2 := ih hcur2 x hx
        rw [dtMax_instant] at h2
        exact ⟨by omega, h2.2⟩

theorem invertGo_covers_not_busy {ws we : Dt} {l : List (Dt × Dt)} :
    ∀ {cur : Dt}, MergedInv l → ws.instant ≤ cur.instant →
      ∀ x : Int, covers (invertGo ws we cur l) x → ¬ covers l x := by
  induction l with
  | nil => intro cur _ _ x _; exact covers_nil x
  | cons p rest ih =>
    intro cur hinv hcur x hx hcov
    obtain ⟨s, e⟩ := p
    rcases hinv with _ | ⟨hhead, htail⟩
    have hbounds := @invertGo_covers_bounds ws we ((s, e) :: rest) cur hcur x hx
    simp only [invertGo] at hx
    split at hx
    · rename_i hskip
      rcases covers_cons.mp hcov with ⟨h1, h2⟩ | hcov
      · simp only at h1 h2
        rcases hskip with h | h <;> omega
      · exact ih htail hcur x hx hcov
    · rename_i hproc
      push_neg at hproc
      rcases covers_append.mp hx with hx | hx
      · split at hx
        · rename_i hemit
          rw [dtMax_instant] at hemit
          rcases covers_cons.mp hx with ⟨h1, h2⟩ | hx
          · rw [dtMax_instant] at h2
            rcases covers_cons.mp hcov with ⟨g1, g2⟩ | ⟨q, hq, g1, g2⟩
            · simp only at g1 g2
              omega
            · have hq2 : s.instant ≤ q.1.instant ∧
                  e.instant + tolerance < q.1.instant := hhead q hq
              have htol : (0 : Int) < tolerance := by decide
              omega
          · exact absurd hx (covers_nil x)
        · exact absurd hx (covers_nil x)
      · have hcur2 : ws.instant ≤ (dtMax cur (dtMin e we)).instant := by
          rw [dtMax_instant]
          omega
        have hb := @invertGo_covers_bounds ws we rest (dtMax cur (dtMin e we)) hcur2 x hx
        rw [dtMax_instant, dtMin_instant] at hb
        rcases covers_cons.mp hcov with ⟨g1, g2⟩ | hcov
        · simp only at g1 g2
          omega
        · exact ih htail (by rw [dtMax_instant]; omega) x hx hcov

theorem invertGo_covers_of_free {ws we : Dt} {l : List (Dt × Dt)} :
    ∀ {cur : Dt}, ∀ x : Int, cur.instant ≤ x → x < we.instant →
      ¬ covers l x → covers (invertGo ws we cur l) x := by
  induction l with
  | nil =>
    intro cur x h1 h2 _
    simp only [invertGo, if_pos (by omega : cur.instant < we.instant)]
    exact covers_cons.mpr (Or.inl ⟨h1, h2⟩)
  | cons p rest ih =>
    intro cur x h1 h2 hnc
    obtain ⟨s, e⟩ := p
    have hnc1 : ¬ (s.instant ≤ x ∧ x < e.instant) := fun h =>
      hnc (covers_cons.mpr (Or.inl h))
    have hnc2 : ¬ covers rest x := fun h => hnc (covers_cons.mpr (Or.inr h))
    simp only [invertGo]
    split
    · exact ih x h1 h2 hnc2
    · rename_i hproc
      push_neg at hproc
      by_cases hlt : x < (dtMax s ws).instant
      · rw [dtMax_instant] at hlt
        refine covers_append.mpr (Or.inl ?_)
        rw [if_pos (by rw [dtMax_instant]; omega)]
        exact covers_cons.mpr (Or.inl ⟨h1, by rw [dtMax_instant]; omega⟩)
      · rw [dtMax_instant] at hlt
        refine covers_append.mpr (Or.inr ?_)
        refine ih x ?_ h2 hnc2
        rw [dtMax_instant, dtMin_instant]
        omega

theorem invertGo_mem_start {ws we : Dt} {l : List (Dt × Dt)} :
    ∀ {cur : Dt}, ∀ q ∈ invertGo ws we cur l, cur.instant ≤ q.1.instant := by
  induction l with
  | nil =>
    intro cur q hq
    simp only [invertGo] at hq
    split at hq
    · simp only [List.mem_singleton] at hq
      simp [hq]
    · simp at hq
  | cons p rest ih =>
    intro cur q hq
    obtain ⟨s, e⟩ := p
    simp only [invertGo] at hq
    split at hq
    · exact ih q hq
    · rcases List.mem_append.mp hq with hq | hq
      · split at hq
        · simp only [List.mem_singleton] at hq
          simp [hq]
        · simp at hq
      · have := ih q hq
        rw [dtMax_instant] at this
        omega

theorem invertGo_pairwise {ws we : Dt} {l : List (Dt × Dt)} :
    ∀ {cur : Dt}, MergedInv l → WF l → ws.instant ≤ cur.instant →
      (invertGo ws we cur l).Pairwise (fun p q => p.2.instant ≤ q.1.instant) := by
  induction l with
  | nil =>
    intro cur _ _ _
    simp only [invertGo]
    split <;> simp
  | cons p rest ih =>
    intro cur hinv hwf hcur
    obtain ⟨s, e⟩ := p
    rcases hinv with _ | ⟨hhead, htail⟩
    have hwfs : s.instant < e.instant := hwf (s, e) (by simp)
    have hwft : WF rest := fun p hp => hwf p (List.mem_cons_of_mem _ hp)
    simp only [invertGo]
    split
    · exact ih htail hwft hcur
    · rename_i hproc
      push_neg at hproc
      refine List.pairwise_append.mpr ⟨?_, ?_, ?_⟩
      · split <;> simp
      · exact ih htail hwft (by rw [dtMax_instant]; omega)
      · intro a ha q hq
        split at ha
        · rename_i hemit
          rw [dtMax_instant] at hemit
          simp only [List.mem_singleton] at ha
          subst ha
          have := invertGo_mem_start q hq
          rw [dtMax_instant, dtMin_instant] at this
          simp only [dtMax_instant]
          omega
        · simp at ha

theorem mergeGo_WF {l : List (Dt × Dt)} :
    ∀ {curS curE : Dt}, WF l → curS.instant < curE.instant →
      ∀ q ∈ mergeGo curS curE l, q.1.instant < q.2.instant := by
  induction l with
  | nil =>
    intro curS curE _ hcur q hq
    simp only [mergeGo, List.mem_singleton] at hq
    simp [hq, hcur]
  | cons p rest ih =>
    intro curS curE hwf hcur q hq
    obtain ⟨s, e⟩ := p
    have hse : s.instant < e.instant := hwf (s, e) (by simp)
    have hwft : WF rest := fun p hp => hwf p (List.mem_cons_of_mem _ hp)
    simp only [mergeGo] at hq
    split at hq
    · exact ih hwft (by rw [dtMax_instant]; omega) q hq
    · rcases List.mem_cons.mp hq with rfl | hq
      · exact hcur
      · exact ih hwft hse q hq

theorem merge_busy_slots_WF {X : List (Dt × Dt)} (h : WF X) :
    WF (merge_busy_slots X) := by
  have hws : WF (pySorted leStart X) := fun p hp => h p (mem_pySorted.mp hp)
  unfold merge_busy_slots
  cases hs : pySorted leStart X with
  | nil => intro p hp; simp at hp
  | cons p rest =>
    obtain ⟨s, e⟩ := p
    rw [hs] at hws
    have hse : s.instant < e.instant := hws (s, e) (by simp)
    exact mergeGo_WF (fun p hp => hws p (List.mem_cons_of_mem _ hp)) hse

/-- C6: for every window `[a, b)` and every list `B` of busy intervals
(satisfying the §3 Interval invariant `end > start`), the free slots
`invert_slots (merge_busy_slots B) a b` together with the merged busy
set restricted to the window exactly tile `[a, b)`: every window instant
is in a free slot or in a merged busy interval, free slots stay inside
the window, no free slot overlaps a merged busy interval, and the free
slots are mutually disjoint. -/
theorem c6_invert_merge_tiling (B : List (Dt × Dt)) (a b : Dt) (hWF : WF B) :
    (∀ x : Int, (a.instant ≤ x ∧ x < b.instant) ↔
      (covers (invert_slots (merge_busy_slots B) a b) x ∨
        (covers (merge_busy_slots B) x ∧ a.instant ≤ x ∧ x < b.instant))) ∧
    (∀ x : Int, ¬ (covers (invert_slots (merge_busy_slots B) a b) x ∧
      covers (merge_busy_slots B) x)) ∧
    (invert_slots (merge_busy_slots B) a b).Pairwise
      (fun p q => p.2.instant ≤ q.1.instant) := by
  have hM : MergedInv (merge_busy_slots B) := merge_busy_slots_mergedInv B
  have hMW : WF (merge_busy_slots B) := merge_busy_slots_WF hWF
  refine ⟨?_, ?_, ?_⟩
  · intro x
    constructor
    · rintro ⟨h1, h2⟩
      by_cases hc : covers (merge_busy_slots B) x
      · exact Or.inr ⟨hc, h1, h2⟩
      · exact Or.inl (invertGo_covers_of_free x h1 h2 hc)
    · rintro (h | ⟨_, h1, h2⟩)
      · exact invertGo_covers_bounds (le_refl _) x h
      · exact ⟨h1, h2⟩
  · rintro x ⟨hf, hm⟩
    exact invertGo_covers_not_busy hM (le_refl _) x hf hm
  · exact invertGo_pairwise hM hMW (le_refl _)

/-- Witness for C6 at the Scenario-A busy set and a one-day window. -/
theorem c6_invert_merge_tiling_witness :
    WF [((⟨9 * usPerHour, 0⟩ : Dt), (⟨10 * usPerHour, 0⟩ : Dt))] ∧
    ((∀ x : Int, ((⟨0, 0⟩ : Dt).instant ≤ x ∧ x < (⟨usPerDay, 0⟩ : Dt).instant) ↔
      (covers (invert_slots
          (merge_busy_slots [((⟨9 * usPerHour, 0⟩ : Dt), (⟨10 * usPerHour, 0⟩ : Dt))])
          ⟨0, 0⟩ ⟨usPerDay, 0⟩) x ∨
        (covers (merge_busy_slots [((⟨9 * usPerHour, 0⟩ : Dt), (⟨10 * usPerHour, 0⟩ : Dt))]) x ∧
          (⟨0, 0⟩ : Dt).instant ≤ x ∧ x < (⟨usPerDay, 0⟩ : Dt).instant))) ∧
    (∀ x : Int, ¬ (covers (invert_slots
          (merge_busy_slots [((⟨9 * usPerHour, 0⟩ : Dt), (⟨10 * usPerHour, 0⟩ : Dt))])
          ⟨0, 0⟩ ⟨usPerDay, 0⟩) x ∧
      covers (merge_busy_slots [((⟨9 * usPerHour, 0⟩ : Dt), (⟨10 * usPerHour, 0⟩ : Dt))]) x)) ∧
    (invert_slots
        (merge_busy_slots [((⟨9 * usPerHour, 0⟩ : Dt), (⟨10 * usPerHour, 0⟩ : Dt))])
        ⟨0, 0⟩ ⟨usPerDay, 0⟩).Pairwise
      (fun p q => p.2.instant ≤ q.1.instant)) :=
  ⟨by decide, c6_invert_merge_tiling _ ⟨0, 0⟩ ⟨usPerDay, 0⟩ (by decide)⟩



/-! ### Chunking (`split_into_chunks`) -/

theorem splitGo_pos {S : Int} (hS : 0 < S) :
    ∀ (fuel : Nat) (r : Int), r.toNat < fuel →
      ∃ l, splitGo S fuel r = .ok l ∧ l.sum = max r 0 ∧
        (∀ c ∈ l.dropLast, c = S) ∧ (∀ c ∈ l, 0 < c ∧ c ≤ S) ∧
        (r ≤ 0 → l = []) := by
  intro fuel
  induction fuel with
  | zero => intro r hr; exact absurd hr (by omega)
  | succ f ih =>
    intro r hr
    by_cases hrpos : r > 0
    · have h2 : (r - min S r).toNat < f := by omega
      obtain ⟨l, hl, hsum, hdrop, hmem, hnil⟩ := ih (r - min S r) h2
      refine ⟨min S r :: l, ?_, ?_, ?_, ?_, ?_⟩
      · simp only [splitGo, if_pos hrpos, hl]
      · simp only [List.sum_cons, hsum]
        omega
      · intro c hc
        rcases l with _ | ⟨a, l2⟩
        · simp at hc
        · rw [List.dropLast_cons₂] at hc
          rcases List.mem_cons.mp hc with rfl | hc
          · have hne : (a :: l2) ≠ [] := by simp
            have hr2 : 0 < r - min S r := by
              by_contra hcon
              exact hne (hnil (by omega))
            omega
          · exact hdrop c hc
      · intro c hc
        rcases List.mem_cons.mp hc with rfl | hc
        · omega
        · exact hmem c hc
      · intro h; omega
    · refine ⟨[], ?_, by simp; omega, by simp, by simp, fun _ => rfl⟩
      simp only [splitGo, if_neg hrpos]

/-- C8: for split requests with positive duration `D` and positive chunk
size `S`, the chunks sum to exactly `D`, every chunk but the last equals
`S`, and every chunk lies in `(0, S]` (so at most the last is shorter
than `S`); without splitting the result is the single chunk `[D]`. -/
theorem c8_split_into_chunks_spec (D S : Int) (hD : 0 < D) (hS : 0 < S) :
    (∃ l, split_into_chunks D true (some S) = .ok l ∧ l.sum = D ∧ l ≠ [] ∧
      (∀ c ∈ l.dropLast, c = S) ∧ (∀ c ∈ l, 0 < c ∧ c ≤ S)) ∧
    (∀ (d : Int) (sm : Option Int), split_into_chunks d false sm = .ok [d]) := by
  constructor
  · obtain ⟨l, hl, hsum, hdrop, hmem, _⟩ := splitGo_pos hS (D.toNat + 1) D (by omega)
    have hS0 : ¬ S = 0 := by omega
    refine ⟨l, ?_, by omega, ?_, hdrop, hmem⟩
    · simp only [split_into_chunks, if_neg (by simp : ¬ (true = false)), if_neg hS0]
      exact hl
    · intro h
      rw [h] at hsum
      simp at hsum
      omega
  · intro d sm
    simp [split_into_chunks]

/-- Witness for C8 at `D = 90`, `S = 60` (Scenario B's shape). -/
theorem c8_split_into_chunks_witness :
    (0 : Int) < 90 ∧ (0 : Int) < 60 ∧
    ((∃ l, split_into_chunks 90 true (some 60) = .ok l ∧ l.sum = 90 ∧ l ≠ [] ∧
      (∀ c ∈ l.dropLast, c = (60 : Int)) ∧ (∀ c ∈ l, 0 < c ∧ c ≤ 60)) ∧
    (∀ (d : Int) (sm : Option Int), split_into_chunks d false sm = .ok [d])) :=
  ⟨by decide, by decide, c8_split_into_chunks_spec 90 60 (by decide) (by decide)⟩

/-! ### Time-of-day rankings (`convert_time_of_day_rankings`) -/

/-- C10: for every (non-empty) preferences dict, the ranking list has
all six bands, each carrying `int(preferences[key])` when its key is
present and rank 0 when absent; the list is sorted by rank ascending
(so rank-0 unranked bands precede every band with rank ≥ 1), and it is
never empty — hence the `time_of_day_ranks` truthiness tests in
`schedule_single_event` / `find_preferred_subwindow` /
`_form_candidates` see a non-empty list even when the user ranked
nothing. -/
theorem c10_convert_time_of_day_rankings_spec (p : Prefs) :
    (convert_time_of_day_rankings p).length = 6 ∧
    convert_time_of_day_rankings p ≠ [] ∧
    (convert_time_of_day_rankings p).Pairwise (fun a b => a.1 ≤ b.1) ∧
    (p.early_morning_rank.getD 0, bandEarlyMorning) ∈ convert_time_of_day_rankings p ∧
    (p.late_morning_rank.getD 0, bandLateMorning) ∈ convert_time_of_day_rankings p ∧
    (p.afternoon_rank.getD 0, bandAfternoon) ∈ convert_time_of_day_rankings p ∧
    (p.evening_rank.getD 0, bandEvening) ∈ convert_time_of_day_rankings p ∧
    (p.night_rank.getD 0, bandNight) ∈ convert_time_of_day_rankings p ∧
    (p.late_night_rank.getD 0, bandLateNight) ∈ convert_time_of_day_rankings p := by
  have hlen : (convert_time_of_day_rankings p).length = 6 := by
    simp [convert_time_of_day_rankings, length_pySorted]
  refine ⟨hlen, ?_, ?_, ?_, ?_, ?_, ?_, ?_, ?_⟩
  · intro h
    rw [h] at hlen
    simp at hlen
  · refine (pairwise_pySorted ?_ ?_ _).imp ?_
    · intro a b
      simpa using Int.le_total a.1 b.1
    · intro a b c
      simp only [decide_eq_true_eq]
      omega
    · intro a b h
      simpa using h
  all_goals
    simp [convert_time_of_day_rankings, mem_pySorted]

/-! ### C2: validation of malformed requests -/

/-- C2 counterexample: a request with non-positive `duration_minutes`
(here 0) raises no validation error at all — the run completes and even
emits a zero-length placement.  A negative `split_minutes` likewise
raises nothing: the chunking loop diverges instead. -/
theorem c2_counterexample_nonpositive_duration :
    runZeroDuration = .ok [zeroDurationRow] ∧
    expand_event_request rawZeroDuration =
      .ok { evPlain with duration_minutes := 0 } ∧
    split_into_chunks 0 false none = .ok [0] ∧
    split_into_chunks 60 true (some (-30)) = .diverge := by
  refine ⟨by decide, by decide, by decide, by decide⟩

/-- The `split_minutes` `ValueError` at run level (Scenario C's shape):
a run on a request that expands but has `split = true` with falsy
`split_minutes` returns exactly that error — `split_into_chunks` raises
inside the main loop before any placement of the request, and the
exception propagates out of `schedule_events`, so the run produces no
output. -/
theorem schedule_events_singleton_split_error
    (shuffle : List (Dt × Dt) → List (Dt × Dt)) (systemTz : Int) (now : Dt)
    (raw : RawEvent) (ev : Event) (imported : List (Option Dt × Option Dt))
    (ws we : Option Dt) (prefs : Option Prefs) (rnd : Bool)
    (hexp : expand_event_request raw = .ok ev) (hsplit : ev.split = true)
    (hsm : ev.split_minutes = none ∨ ev.split_minutes = some 0) :
    schedule_events shuffle systemTz now [raw] imported ws we prefs rnd =
      .error "ValueError: split_minutes required when split is True" := by
  have hchunks : split_into_chunks ev.duration_minutes ev.split ev.split_minutes =
      .error "ValueError: split_minutes required when split is True" := by
    rcases hsm with h | h <;> simp [split_into_chunks, hsplit, h]
  have hmap : [raw].mapM expand_event_request = Res.ok [ev] := by
    rw [List.mapM_cons, List.mapM_nil, hexp]
    rfl
  have hpe : ∀ (ctx : Ctx) (st : EngineState), processEvent ctx st ev =
      .error "ValueError: split_minutes required when split is True" := by
    intro ctx st
    unfold processEvent
    rw [hchunks]
    rfl
  simp only [schedule_events, hmap, Bind.bind, Res.bind, pySorted, pyInsert,
    List.foldlM_cons, List.foldlM_nil, hpe]

/-- C2 amended: the validation errors the engine does raise are exactly
`split = true` with `split_minutes` missing or zero (`ValueError` from
`split_into_chunks`) and unparsable date/time strings (`ValueError`
from `expand_event_request`); these propagate out of `schedule_events`
unchanged, before any placement of the offending request, so the run
produces no output at all (hence no busy-set mutation survives).
Non-positive durations are not validated, and a negative
`split_minutes` diverges rather than raising. -/
theorem c2_amended_validation_spec :
    (∀ d : Int, split_into_chunks d true none =
      .error "ValueError: split_minutes required when split is True") ∧
    (∀ d : Int, split_into_chunks d true (some 0) =
      .error "ValueError: split_minutes required when split is True") ∧
    (∀ t : RawEvent, t.date_start = some none →
      expand_event_request t =
        .error "ValueError: Invalid isoformat string (date_start)") ∧
    (∀ shuffle systemTz now raws imported ws we prefs rnd msg,
      raws.mapM expand_event_request = (Res.error msg : Res (List Event)) →
      schedule_events shuffle systemTz now raws imported ws we prefs rnd =
        .error msg) ∧
    (∀ (shuffle : List (Dt × Dt) → List (Dt × Dt)) (systemTz : Int) (now : Dt)
        (raw : RawEvent) (ev : Event) (imported : List (Option Dt × Option Dt))
        (ws we : Option Dt) (prefs : Option Prefs) (rnd : Bool),
      expand_event_request raw = .ok ev → ev.split = true →
      (ev.split_minutes = none ∨ ev.split_minutes = some 0) →
      schedule_events shuffle systemTz now [raw] imported ws we prefs rnd =
        .error "ValueError: split_minutes required when split is True") := by
  refine ⟨?_, ?_, ?_, ?_, ?_⟩
  · intro d; simp [split_into_chunks]
  · intro d; simp [split_into_chunks]
  · intro t h
    simp [expand_event_request, h, parseField, Bind.bind, Res.bind]
  · intro shuffle systemTz now raws imported ws we prefs rnd msg h
    simp only [schedule_events, Bind.bind, h, Res.bind]
  · intro shuffle systemTz now raw ev imported ws we prefs rnd hexp hsplit hsm
    exact schedule_events_singleton_split_error shuffle systemTz now raw ev
      imported ws we prefs rnd hexp hsplit hsm

/-- Witness for C2's amended statement: the unparsable-date request and
a run containing it. -/
theorem c2_amended_validation_witness :
    (rawUnparsableDate.date_start = some none) ∧
    ([rawUnparsableDate].mapM expand_event_request =
      (Res.error "ValueError: Invalid isoformat string (date_start)" : Res (List Event))) ∧
    split_into_chunks 60 true none =
      .error "ValueError: split_minutes required when split is True" ∧
    split_into_chunks 60 true (some 0) =
      .error "ValueError: split_minutes required when split is True" ∧
    expand_event_request rawUnparsableDate =
      .error "ValueError: Invalid isoformat string (date_start)" ∧
    schedule_events id 0 ⟨0, 0⟩ [rawUnparsableDate] [] none none none false =
      .error "ValueError: Invalid isoformat string (date_start)" ∧
    expand_event_request rawSplitNoMinutes = .ok { evPlain with split := true } ∧
    ({ evPlain with split := true } : Event).split = true ∧
    ({ evPlain with split := true } : Event).split_minutes = none ∧
    schedule_events id 0 ⟨0, 0⟩ [rawSplitNoMinutes] [] none none none false =
      .error "ValueError: split_minutes required when split is True" :=
  ⟨by decide, by decide,
   c2_amended_validation_spec.1 60,
   c2_amended_validation_spec.2.1 60,
   c2_amended_validation_spec.2.2.1 rawUnparsableDate (by decide),
   c2_amended_validation_spec.2.2.2.1 id 0 ⟨0, 0⟩ [rawUnparsableDate] [] none none
     none false _ (by decide),
   by decide, by decide, by decide,
   c2_amended_validation_spec.2.2.2.2 id 0 ⟨0, 0⟩ rawSplitNoMinutes
     { evPlain with split := true } [] none none none false (by decide) (by decide)
     (Or.inl (by decide))⟩

/-! ### C3: recurrence after an unplaced first chunk -/

/-- C3: the code contradicts the claim (and the spec's stated guard):
when the first chunk of a recurring request cannot be placed,
`schedule_single_event` returns `start_time = None`, yet
`schedule_events` still enters the recurrence block and evaluates
`next_start_dt.date()`, raising `AttributeError` instead of completing
the run.  Evaluated here on the concrete failing input (a 60-minute
weekly request in a 30-minute window). -/
theorem c3_recurrence_crash_on_unplaced_first_chunk :
    runRecTooSmall =
      .error "AttributeError: NoneType object has no attribute date" := by
  decide

/-! ### C4: failed recurrence occurrences and placeholders -/

theorem fpsBand_some {candS candE : Dt} {needed : Int} {dayWake dayBed : Option Dt}
    {day localTz systemTz : Int} {band : Int × (Int × Int)} {s e : Dt}
    (h : fpsBand candS candE needed dayWake dayBed day localTz systemTz band =
      some (s, e)) :
    candS.instant ≤ s.instant ∧ e.instant = s.instant + needed ∧
      e.instant ≤ candE.instant := by
  simp only [fpsBand] at h
  rcases dayWake with _ | w <;> rcases dayBed with _ | b <;>
    (split at h <;> split at h <;>
      first
      | exact Option.noConfusion h
      | (rename_i hfits
         simp only [Option.some.injEq, Prod.mk.injEq] at h
         obtain ⟨hs, he⟩ := h
         subst hs
         subst he
         simp only [Dt.addMicros, dtMax_instant, dtMin_instant] at hfits
         refine ⟨?_, ?_, ?_⟩ <;>
           simp only [Dt.addMicros, dtMax_instant, dtMin_instant] <;>
           omega))

theorem fps_some {candS candE : Dt} {needed : Int}
    {ranks : List (Int × (Int × Int))} {wake bed : Option Int}
    {localTz systemTz : Int} {s e : Dt}
    (h : find_preferred_subwindow candS candE needed ranks wake bed localTz
      systemTz = some (s, e)) :
    candS.instant ≤ s.instant ∧ e.instant = s.instant + needed ∧
      e.instant ≤ candE.instant := by
  simp only [find_preferred_subwindow] at h
  split at h
  · exact absurd h (by simp)
  · obtain ⟨off, _, hday⟩ := List.exists_of_findSome?_eq_some h
    simp only [fpsDay] at hday
    obtain ⟨band, _, hband⟩ := List.exists_of_findSome?_eq_some hday
    exact fpsBand_some hband

/-- The one placeholder row appended on a failed attempt. -/
theorem ssLoop_spec (ev : Event) (ck needed : Int) (busy : List (Dt × Dt))
    (sched : List ScheduledEvent) (prefs : ChunkPrefs) (sys : Int) :
    ∀ cands : List (Dt × Dt),
      (ssLoop ev ck needed busy sched prefs sys cands =
        { placed := none, busy := busy,
          scheduled := sched ++
            [{ name := ev.title, description := ev.description, start := none,
               stop := none, event_type := ev.event_type,
               priority := ev.priority, unscheduled := true,
               requested_minutes := some ck }] }) ∨
      (∃ (s e : Dt) (c : Dt × Dt), c ∈ cands ∧
        ssLoop ev ck needed busy sched prefs sys cands =
          commitPlacement ev busy sched s e ∧
        c.1.instant ≤ s.instant ∧ e.instant = s.instant + needed ∧
        e.instant ≤ c.2.instant) := by
  intro cands
  induction cands with
  | nil => left; rfl
  | cons c rest ih =>
    obtain ⟨cS, cE⟩ := c
    simp only [ssLoop]
    split
    · rcases ih with h | ⟨s, e, c, hc, heq, h1, h2, h3⟩
      · left; exact h
      · right; exact ⟨s, e, c, List.mem_cons_of_mem _ hc, heq, h1, h2, h3⟩
    · split
      · rename_i sDt eDt hsub
        right
        refine ⟨sDt, eDt, (cS, cE), by simp, rfl, ?_⟩
        have hfps : find_preferred_subwindow cS cE needed prefs.time_of_day_ranks
            prefs.wake_time prefs.bed_time prefs.local_tz sys = some (sDt, eDt) := by
          by_cases hr : prefs.time_of_day_ranks ≠ []
          · rw [if_pos hr] at hsub; exact hsub
          · rw [if_neg hr] at hsub; exact absurd hsub (by simp)
        have := fps_some hfps
        exact ⟨this.1, this.2.1, this.2.2⟩
      · split
        · rcases ih with h | ⟨s, e, c, hc, heq, h1, h2, h3⟩
          · left; exact h
          · right; exact ⟨s, e, c, List.mem_cons_of_mem _ hc, heq, h1, h2, h3⟩
        · rename_i hfit hfar
          right
          refine ⟨cS, cS.addMicros needed, (cS, cE), by simp, rfl, le_refl _, rfl, ?_⟩
          simp only [Dt.addMicros] at hfar ⊢
          omega

/-- C4 counterexample: in `runRecBlockedWeek` the week-7 occurrence
fails all three fallback attempts, and the output is not free of
entries for it — each failed attempt appended an `unscheduled`
placeholder, so the run returns the placed base chunk plus three
placeholder rows. -/
theorem c4_counterexample_placeholders_emitted :
    runRecBlockedWeek =
      .ok [scenarioARow, recPlaceholderRow, recPlaceholderRow, recPlaceholderRow] ∧
    recPlaceholderRow.unscheduled = true ∧
    recPlaceholderRow.start = none := by
  refine ⟨by decide, by decide, by decide⟩

/-- C4 amended: a recurrence occurrence whose attempts all fail is not
silently dropped: every placement attempt that fails — the recurrence
fallback attempts included, since they call `schedule_single_event` —
appends an `unscheduled` placeholder row carrying the requested
minutes, and leaves the busy set unchanged (three placeholders when
all three attempts of an occurrence fail, as in
`runRecBlockedWeek`). -/
theorem c4_amended_failed_attempt_appends_placeholder
    (shuffle : List (Dt × Dt) → List (Dt × Dt)) (ev : Event) (ck : Int)
    (busy : List (Dt × Dt)) (sched : List ScheduledEvent)
    (cands : List (Dt × Dt)) (prefs : ChunkPrefs) (sys : Int)
    (h : (schedule_single_event shuffle ev ck busy sched cands prefs sys).placed = none) :
    (schedule_single_event shuffle ev ck busy sched cands prefs sys).scheduled =
      sched ++
        [{ name := ev.title, description := ev.description, start := none,
           stop := none, event_type := ev.event_type, priority := ev.priority,
           unscheduled := true, requested_minutes := some ck }] ∧
    (schedule_single_event shuffle ev ck busy sched cands prefs sys).busy = busy := by
  unfold schedule_single_event at h ⊢
  rcases ssLoop_spec ev ck (ck * usPerMinute) busy sched prefs sys
      (if prefs.randomize ∧ cands ≠ [] then shuffle cands else cands) with
    heq | ⟨s, e, c, _, heq, _, _, _⟩
  · rw [heq]
    exact ⟨rfl, rfl⟩
  · rw [heq] at h
    simp [commitPlacement] at h

/-- Witness for C4's amended statement: a failed attempt with no
candidates. -/
theorem c4_amended_failed_attempt_witness :
    ((schedule_single_event id evPlain 60 [] [] [] cprefsPlain 0).placed = none) ∧
    ((schedule_single_event id evPlain 60 [] [] [] cprefsPlain 0).scheduled =
      [] ++
        [{ name := evPlain.title, description := evPlain.description, start := none,
           stop := none, event_type := evPlain.event_type,
           priority := evPlain.priority, unscheduled := true,
           requested_minutes := some 60 }] ∧
    (schedule_single_event id evPlain 60 [] [] [] cprefsPlain 0).busy = []) :=
  ⟨by decide,
   c4_amended_failed_attempt_appends_placeholder id evPlain 60 [] [] [] cprefsPlain 0
     (by decide)⟩

/-! ### C5: Scenario A -/

/-- C5 counterexample: on Scenario A's input the engine does not place
the request at 10:00–11:00 — the single output row starts at instant 0
(00:00), because candidates are walked chronologically over the whole
window and the free slot before the busy interval comes first. -/
theorem c5_counterexample_scenario_a :
    runScenarioA = .ok [scenarioARow] ∧
    scenarioARow.start = some ⟨0, 0⟩ ∧
    ¬ scenarioARow.start = some ⟨10 * usPerHour, 0⟩ := by
  refine ⟨by decide, by decide, by decide⟩

/-- C5 amended: on Scenario A's input (busy 09:00–10:00 on day 1, one
60-minute unconstrained request, window day 1 00:00–23:59) the engine
places the request at 00:00–01:00, the chronologically first fitting
free slot of the window — not at 10:00–11:00. -/
theorem c5_amended_scenario_a_places_at_midnight :
    runScenarioA = .ok [scenarioARow] ∧
    scenarioARow.start = some ⟨0, 0⟩ ∧ scenarioARow.stop = some ⟨usPerHour, 0⟩ := by
  refine ⟨by decide, by decide, by decide⟩

/-! ### C9: blackout weekdays -/

/-- C9 counterexample: with blackout Mondays and preference timezone
UTC+10, the request constrained to Monday day 4 at 08:00 local is
nevertheless placed, starting at instant 338400000000 — which, read in
the preference timezone, is Monday (weekday 0, the blackout day) at
08:00.  The filter examined `cand[0].date().weekday()` of a UTC-
represented datetime (Sunday), so the candidate survived. -/
theorem c9_counterexample_blackout_monday_placement :
    runBlackoutMonday = .ok [blackoutMondayRow] ∧
    convert_blackout_days prefsBlackoutMonday = [0] ∧
    blackoutMondayRow.start = some ⟨338400000000, 0⟩ ∧
    weekday (((⟨338400000000, 0⟩ : Dt).astimezone (10 * usPerHour)).date) = 0 ∧
    weekday ((⟨338400000000, 0⟩ : Dt).date) = 6 := by
  refine ⟨by decide, by decide, by decide, by decide, by decide⟩

theorem mem_score_and_sort {cands : List (Dt × Dt)}
    {ranks : List (Int × (Int × Int))} {localTz systemTz : Int} {c : Dt × Dt}
    (h : c ∈ score_and_sort_candidates cands ranks localTz systemTz) :
    c ∈ cands := by
  unfold score_and_sort_candidates at h
  rcases List.mem_map.mp h with ⟨x, hx, rfl⟩
  rcases List.mem_map.mp (mem_pySorted.mp hx) with ⟨c0, hc0, rfl⟩
  exact hc0

/-- C9 amended: what the code actually guarantees — when the blackout
list is non-empty, every candidate emitted by `_form_candidates` has a
candidate-start whose `.date().weekday()`, read in that datetime's own
representation timezone (UTC for starts coming from the request's own
date/time constraints), lies outside the blackout list.  This does not
prevent a placed event from starting on a blackout weekday in the
user's preference timezone (see the counterexample). -/
theorem c9_amended_blackout_filters_candidate_starts
    (busy : List (Dt × Dt)) (ws we : Dt) (ev : Event) (prefs : ChunkPrefs)
    (sys : Int) (c : Dt × Dt) (hc : c ∈ _form_candidates busy ws we ev prefs sys)
    (hbd : prefs.blackout_days ≠ []) :
    weekday c.1.date ∉ prefs.blackout_days := by
  unfold _form_candidates at hc
  have hmem : c ∈ (((invert_slots
      (merge_busy_slots (busy.map (fun p =>
        (p.1.astimezone prefs.local_tz, p.2.astimezone prefs.local_tz))))
      (ws.astimezone prefs.local_tz) (we.astimezone prefs.local_tz)).map (fun f =>
        (generate_candidate_windows_for_event ev f.1 f.2 prefs.wake_time
            prefs.bed_time (some prefs.local_tz) sys).filter
          (fun c => prefs.blackout_days = [] ∨
            weekday c.1.date ∉ prefs.blackout_days))).flatten) := by
    split at hc
    · exact mem_score_and_sort hc
    · exact mem_pySorted.mp hc
  rcases List.mem_flatten.mp hmem with ⟨l, hl, hcl⟩
  rcases List.mem_map.mp hl with ⟨f, _, rfl⟩
  have hfil := (List.mem_filter.mp hcl).2
  rcases (decide_eq_true_eq.mp hfil :
      prefs.blackout_days = [] ∨ weekday c.1.date ∉ prefs.blackout_days) with h | h
  · exact absurd h hbd
  · exact h

/-- Witness for C9's amended statement at the counterexample's inputs. -/
theorem c9_amended_blackout_filter_witness :
    ((⟨(⟨338400000000, 0⟩ : Dt), (⟨395999999999, 0⟩ : Dt)⟩ : Dt × Dt) ∈
      _form_candidates [] ⟨3 * usPerDay, 0⟩ ⟨5 * usPerDay, 0⟩ evMonday
        cprefsBlackout 0) ∧
    cprefsBlackout.blackout_days ≠ [] ∧
    weekday ((⟨338400000000, 0⟩ : Dt) : Dt).date ∉ cprefsBlackout.blackout_days :=
  ⟨by decide, by decide,
   c9_amended_blackout_filters_candidate_starts [] ⟨3 * usPerDay, 0⟩
     ⟨5 * usPerDay, 0⟩ evMonday cprefsBlackout 0
     (⟨338400000000, 0⟩, ⟨395999999999, 0⟩) (by decide) (by decide)⟩



/-! ### C1: the run invariant of the placement engine -/

theorem covers_map_astimezone (busy : List (Dt × Dt)) (tz : Int) (x : Int) :
    covers (busy.map (fun p => (p.1.astimezone tz, p.2.astimezone tz))) x ↔
      covers busy x := by
  unfold covers
  constructor
  · rintro ⟨q, hq, h⟩
    rcases List.mem_map.mp hq with ⟨p, hp, rfl⟩
    exact ⟨p, hp, h⟩
  · rintro ⟨p, hp, h⟩
    exact ⟨(p.1.astimezone tz, p.2.astimezone tz), List.mem_map_of_mem _ hp, h⟩

theorem mergeGo_covers {l : List (Dt × Dt)} :
    ∀ {curS curE : Dt},
      l.Pairwise (fun a b => a.1.instant ≤ b.1.instant) →
      (∀ p ∈ l, curS.instant ≤ p.1.instant) →
      ∀ x : Int, covers ((curS, curE) :: l) x → covers (mergeGo curS curE l) x := by
  induction l with
  | nil =>
    intro curS curE _ _ x hx
    simpa [mergeGo] using hx
  | cons p rest ih =>
    intro curS curE hsorted hlow x hx
    obtain ⟨s, e⟩ := p
    rcases hsorted with _ | ⟨hhead, htail⟩
    have hs : curS.instant ≤ s.instant := hlow (s, e) (by simp)
    simp only [mergeGo]
    split
    · rename_i habs
      refine ih htail (fun p hp => hlow p (List.mem_cons_of_mem _ hp)) x ?_
      rcases covers_cons.mp hx with h | hx2
      · simp only at h
        refine covers_cons.mpr (Or.inl ?_)
        show curS.instant ≤ x ∧ x < (dtMax curE e).instant
        simp only [dtMax_instant]
        omega
      · rcases covers_cons.mp hx2 with h | hx3
        · simp only at h
          refine covers_cons.mpr (Or.inl ?_)
          show curS.instant ≤ x ∧ x < (dtMax curE e).instant
          simp only [dtMax_instant]
          omega
        · exact covers_cons.mpr (Or.inr hx3)
    · rcases covers_cons.mp hx with h | hx2
      · exact covers_cons.mpr (Or.inl h)
      · exact covers_cons.mpr
          (Or.inr (ih htail (fun p hp => hhead p hp) x hx2))

theorem covers_merge {X : List (Dt × Dt)} {x : Int} (h : covers X x) :
    covers (merge_busy_slots X) x := by
  have hx : covers (pySorted leStart X) x :=
    (covers_congr (fun p => mem_pySorted) x).mpr h
  have hp : (pySorted leStart X).Pairwise (fun a b => a.1.instant ≤ b.1.instant) := by
    refine (pairwise_pySorted leStart_total leStart_trans X).imp ?_
    intro a b hab
    simpa [leStart] using hab
  unfold merge_busy_slots
  cases hs : pySorted leStart X with
  | nil =>
    rw [hs] at hx
    exact absurd hx (covers_nil x)
  | cons p rest =>
    obtain ⟨s, e⟩ := p
    rw [hs] at hx hp
    rcases hp with _ | ⟨hhead, htail⟩
    exact mergeGo_covers htail (fun p hp => hhead p hp) x hx

theorem candidateForDay_bounds {ev : Event} {ws we : Dt} {wake bed : Option Int}
    {localTz : Option Int} {sys : Int} {d : Int} {c : Dt × Dt}
    (h : candidateForDay ev ws we wake bed localTz sys d = some c) :
    ws.instant ≤ c.1.instant ∧ c.2.instant ≤ we.instant := by
  rcases wake with _ | w <;> rcases bed with _ | b <;>
    simp only [candidateForDay, Option.map] at h <;>
    (try split at h) <;> (try split at h) <;>
    first
    | exact Option.noConfusion h
    | (simp only [Option.some.injEq] at h
       subst h
       constructor <;> simp only [dtMax_instant, dtMin_instant] <;> omega)

theorem genGo_bounds {ev : Event} {ws we : Dt} {wake bed : Option Int}
    {localTz : Option Int} {sys : Int} {endDate : Int} :
    ∀ {fuel : Nat} {d : Int} {c : Dt × Dt},
      c ∈ genGo ev ws we wake bed localTz sys endDate fuel d →
      ws.instant ≤ c.1.instant ∧ c.2.instant ≤ we.instant := by
  intro fuel
  induction fuel with
  | zero => intro d c hc; simp [genGo] at hc
  | succ f ih =>
    intro d c hc
    simp only [genGo] at hc
    split at hc
    · simp at hc
    · split at hc
      · rename_i c0 hc0
        rcases List.mem_cons.mp hc with rfl | hc
        · exact candidateForDay_bounds hc0
        · exact ih hc
      · exact ih hc

theorem generate_candidate_windows_bounds {ev : Event} {ws we : Dt}
    {wake bed : Option Int} {localTz : Option Int} {sys : Int} {c : Dt × Dt}
    (hc : c ∈ generate_candidate_windows_for_event ev ws we wake bed localTz sys) :
    ws.instant ≤ c.1.instant ∧ c.2.instant ≤ we.instant := by
  simp only [generate_candidate_windows_for_event] at hc
  exact genGo_bounds hc

/-- Every candidate formed against a busy set is disjoint from that busy
set: its instants lie in a free slot of the inverted merged busy list. -/
theorem form_candidates_not_busy {busy : List (Dt × Dt)} {ws we : Dt}
    {ev : Event} {prefs : ChunkPrefs} {sys : Int} {c : Dt × Dt}
    (hc : c ∈ _form_candidates busy ws we ev prefs sys) :
    ∀ x : Int, c.1.instant ≤ x → x < c.2.instant → ¬ covers busy x := by
  intro x hx1 hx2 hcov
  unfold _form_candidates at hc
  have hmem : c ∈ (((invert_slots
      (merge_busy_slots (busy.map (fun p =>
        (p.1.astimezone prefs.local_tz, p.2.astimezone prefs.local_tz))))
      (ws.astimezone prefs.local_tz) (we.astimezone prefs.local_tz)).map (fun f =>
        (generate_candidate_windows_for_event ev f.1 f.2 prefs.wake_time
            prefs.bed_time (some prefs.local_tz) sys).filter
          (fun c => prefs.blackout_days = [] ∨
            weekday c.1.date ∉ prefs.blackout_days))).flatten) := by
    split at hc
    · exact mem_score_and_sort hc
    · exact mem_pySorted.mp hc
  rcases List.mem_flatten.mp hmem with ⟨l, hl, hcl⟩
  rcases List.mem_map.mp hl with ⟨f, hf, rfl⟩
  have hbounds := generate_candidate_windows_bounds (List.mem_filter.mp hcl).1
  have hfree : covers (invert_slots
      (merge_busy_slots (busy.map (fun p =>
        (p.1.astimezone prefs.local_tz, p.2.astimezone prefs.local_tz))))
      (ws.astimezone prefs.local_tz) (we.astimezone prefs.local_tz)) x :=
    ⟨f, hf, by omega, by omega⟩
  have hnb := invertGo_covers_not_busy
    (merge_busy_slots_mergedInv _) (le_refl _) x hfree
  exact hnb (covers_merge ((covers_map_astimezone busy prefs.local_tz x).mpr hcov))

/-- The shape of a `schedule_single_event` result: either the
placeholder append, or a commit inside one of the given candidates. -/
theorem schedule_single_event_spec (shuffle : List (Dt × Dt) → List (Dt × Dt))
    (hsh : ∀ l c, c ∈ shuffle l → c ∈ l) (ev : Event) (ck : Int)
    (busy : List (Dt × Dt)) (sched : List ScheduledEvent)
    (cands : List (Dt × Dt)) (prefs : ChunkPrefs) (sys : Int) :
    (schedule_single_event shuffle ev ck busy sched cands prefs sys =
      { placed := none, busy := busy,
        scheduled := sched ++
          [{ name := ev.title, description := ev.description, start := none,
             stop := none, event_type := ev.event_type,
             priority := ev.priority, unscheduled := true,
             requested_minutes := some ck }] }) ∨
    (∃ (s e : Dt) (c : Dt × Dt), c ∈ cands ∧
      schedule_single_event shuffle ev ck busy sched cands prefs sys =
        commitPlacement ev busy sched s e ∧
      c.1.instant ≤ s.instant ∧ e.instant ≤ c.2.instant) := by
  unfold schedule_single_event
  rcases ssLoop_spec ev ck (ck * usPerMinute) busy sched prefs sys
      (if prefs.randomize ∧ cands ≠ [] then shuffle cands else cands) with
    heq | ⟨s, e, c, hc, heq, h1, _, h3⟩
  · exact Or.inl heq
  · refine Or.inr ⟨s, e, c, ?_, heq, h1, h3⟩
    split at hc
    · exact hsh cands c hc
    · exact hc

/-- One placement attempt (candidates formed from the current busy set,
then `schedule_single_event`) preserves the run invariant. -/
theorem step_preserves (shuffle : List (Dt × Dt) → List (Dt × Dt))
    (hsh : ∀ l c, c ∈ shuffle l → c ∈ l) (ev : Event) (ck : Int)
    (wS wE : Dt) (prefs : ChunkPrefs) (sys : Int)
    (busy : List (Dt × Dt)) (sched : List ScheduledEvent)
    (hgs : GoodState ⟨busy, sched⟩) :
    GoodState
      ⟨(schedule_single_event shuffle ev ck busy sched
          (_form_candidates busy wS wE ev prefs sys) prefs sys).busy,
        (schedule_single_event shuffle ev ck busy sched
          (_form_candidates busy wS wE ev prefs sys) prefs sys).scheduled⟩ := by
  obtain ⟨hmerged, hcover, hpair⟩ := hgs
  rcases schedule_single_event_spec shuffle hsh ev ck busy sched
      (_form_candidates busy wS wE ev prefs sys) prefs sys with
    heq | ⟨s, e, c, hc, heq, hcs, hce⟩
  · rw [heq]
    refine ⟨hmerged, ?_, ?_⟩
    · intro row hrow s2 e2 hs2 he2 x h1 h2
      rcases List.mem_append.mp hrow with hrow | hrow
      · exact hcover row hrow s2 e2 hs2 he2 x h1 h2
      · simp only [List.mem_singleton] at hrow
        subst hrow
        exact Option.noConfusion hs2
    · refine List.pairwise_append.mpr ⟨hpair, by simp, ?_⟩
      intro a _ b hb
      simp only [List.mem_singleton] at hb
      subst hb
      rintro ⟨sa, ea, sb, eb, _, _, hb1, _, _⟩
      exact Option.noConfusion hb1
  · rw [heq]
    have hfreec := form_candidates_not_busy hc
    refine ⟨merge_busy_slots_mergedInv _, ?_, ?_⟩
    · intro row hrow s2 e2 hs2 he2 x h1 h2
      simp only [commitPlacement] at hrow
      rcases List.mem_append.mp hrow with hrow | hrow
      · refine covers_merge (covers_append.mpr (Or.inl ?_))
        exact hcover row hrow s2 e2 hs2 he2 x h1 h2
      · simp only [List.mem_singleton] at hrow
        subst hrow
        simp only [Option.some.injEq] at hs2 he2
        subst hs2
        subst he2
        refine covers_merge (covers_append.mpr (Or.inr ?_))
        exact ⟨(s, e), by simp, h1, h2⟩
    · simp only [commitPlacement]
      refine List.pairwise_append.mpr ⟨hpair, by simp, ?_⟩
      intro a ha b hb
      simp only [List.mem_singleton] at hb
      subst hb
      rintro ⟨sa, ea, sb, eb, ha1, ha2, hb1, hb2, hlt⟩
      simp only [Option.some.injEq] at hb1 hb2
      have hb1i : s.instant = sb.instant := by rw [hb1]
      have hb2i : e.instant = eb.instant := by rw [hb2]
      have hx1 : covers busy (max sa.instant sb.instant) :=
        hcover a ha sa ea ha1 ha2 (max sa.instant sb.instant) (by omega) (by omega)
      have hx2 : ¬ covers busy (max sa.instant sb.instant) :=
        hfreec (max sa.instant sb.instant) (by omega) (by omega)
      exact hx2 hx1



theorem recurAttempt_preserves (ctx : Ctx)
    (hsh : ∀ l c, c ∈ ctx.shuffle l → c ∈ l) (st : EngineState) (ev : Event)
    (ck : Int) (wS wE : Dt) (hgs : GoodState st) :
    GoodState ⟨(recurAttempt ctx st ev ck wS wE).busy,
               (recurAttempt ctx st ev ck wS wE).scheduled⟩ := by
  unfold recurAttempt
  exact step_preserves ctx.shuffle hsh ev ck wS wE ctx.prefs ctx.systemTz
    st.busy st.scheduled hgs

theorem recurBody_preserves (ctx : Ctx)
    (hsh : ∀ l c, c ∈ ctx.shuffle l → c ∈ l) (ev : Event) (ck : Int)
    (s0 e0 : Dt) (occ : Int) (st : EngineState) (hgs : GoodState st) :
    GoodState (recurBody ctx ev ck s0 e0 occ st) := by
  simp only [recurBody]
  split
  · exact recurAttempt_preserves ctx hsh st _ ck _ _ hgs
  · split
    · exact recurAttempt_preserves ctx hsh _ _ ck _ _
        (recurAttempt_preserves ctx hsh st _ ck _ _ hgs)
    · exact recurAttempt_preserves ctx hsh _ _ ck _ _
        (recurAttempt_preserves ctx hsh _ _ ck _ _
          (recurAttempt_preserves ctx hsh st _ ck _ _ hgs))

theorem recurLoop_preserves (ctx : Ctx)
    (hsh : ∀ l c, c ∈ ctx.shuffle l → c ∈ l) (ev : Event) (ck : Int)
    (s0 e0 : Dt) (ru : Int) :
    ∀ (fuel : Nat) (occ : Int) (st : EngineState), GoodState st →
      GoodState (recurLoop ctx ev ck s0 e0 ru fuel occ st) := by
  intro fuel
  induction fuel with
  | zero => intro occ st h; exact h
  | succ f ih =>
    intro occ st h
    simp only [recurLoop]
    split
    · exact h
    · exact ih (occ + 7) _ (recurBody_preserves ctx hsh ev ck s0 e0 occ st h)

theorem res_bind_ok {α β : Type} {x : Res α} {f : α → Res β} {b : β}
    (h : x >>= f = .ok b) : ∃ a, x = .ok a ∧ f a = .ok b := by
  cases x with
  | ok a => exact ⟨a, rfl, h⟩
  | error m => exact Res.noConfusion h
  | diverge => exact Res.noConfusion h

theorem foldlM_preserves {σ α : Type} (P : σ → Prop) (f : σ → α → Res σ)
    (hf : ∀ s a s2, P s → f s a = .ok s2 → P s2) :
    ∀ (l : List α) (s s2 : σ), P s → l.foldlM f s = .ok s2 → P s2 := by
  intro l
  induction l with
  | nil =>
    intro s s2 hs h
    simp only [List.foldlM_nil] at h
    have := Res.ok.inj h
    subst this
    exact hs
  | cons a l ih =>
    intro s s2 hs h
    simp only [List.foldlM_cons] at h
    obtain ⟨s1, h1, h2⟩ := res_bind_ok h
    exact ih s1 s2 (hf s a s1 hs h1) h2

theorem processChunk_preserves (ctx : Ctx)
    (hsh : ∀ l c, c ∈ ctx.shuffle l → c ∈ l) (ev : Event) :
    ∀ (st : EngineState) (ck : Int) (st2 : EngineState), GoodState st →
      processChunk ctx ev st ck = .ok st2 → GoodState st2 := by
  intro st ck st2 hgs h
  have hst1 : GoodState
      ⟨(schedule_single_event ctx.shuffle ev ck st.busy st.scheduled
          (_form_candidates st.busy ctx.windowStart ctx.windowEnd ev ctx.prefs
            ctx.systemTz) ctx.prefs ctx.systemTz).busy,
        (schedule_single_event ctx.shuffle ev ck st.busy st.scheduled
          (_form_candidates st.busy ctx.windowStart ctx.windowEnd ev ctx.prefs
            ctx.systemTz) ctx.prefs ctx.systemTz).scheduled⟩ :=
    step_preserves ctx.shuffle hsh ev ck ctx.windowStart ctx.windowEnd ctx.prefs
      ctx.systemTz st.busy st.scheduled hgs
  rcases hr : ev.recurring <;> rcases hu : ev.recurring_until with _ | ru <;>
    simp only [processChunk, hr, hu] at h
  all_goals
    first
    | (have heq := Res.ok.inj h
       subst heq
       exact hst1)
    | (split at h
       · exact Res.noConfusion h
       · have heq := Res.ok.inj h
         subst heq
         exact recurLoop_preserves ctx hsh ev ck _ _ ru _ _ _ hst1)

theorem processEvent_preserves (ctx : Ctx)
    (hsh : ∀ l c, c ∈ ctx.shuffle l → c ∈ l) :
    ∀ (st : EngineState) (ev : Event) (st2 : EngineState), GoodState st →
      processEvent ctx st ev = .ok st2 → GoodState st2 := by
  intro st ev st2 hgs h
  unfold processEvent at h
  obtain ⟨chunks, _, hfold⟩ := res_bind_ok h
  exact foldlM_preserves GoodState (processChunk ctx ev)
    (fun s a s2 hp hpc => processChunk_preserves ctx hsh ev s a s2 hp hpc)
    chunks st st2 hgs hfold

/-- C1: for every run of the placement engine (`random.shuffle` modelled
by any function whose output elements come from its input), if
`schedule_events` returns a result list then no two placed rows of that
list overlap in time; and after every successful insertion of a
placement, the working busy set satisfies the merged invariant (sorted
by start, every pairwise gap strictly exceeding the 1-second
tolerance). -/
theorem c1_schedule_events_non_overlap
    (shuffle : List (Dt × Dt) → List (Dt × Dt))
    (hsh : ∀ l c, c ∈ shuffle l → c ∈ l) (systemTz : Int) (now : Dt)
    (raws : List RawEvent) (imported : List (Option Dt × Option Dt))
    (ws we : Option Dt) (prefs : Option Prefs) (rnd : Bool)
    (out : List ScheduledEvent)
    (hrun : schedule_events shuffle systemTz now raws imported ws we prefs rnd =
      .ok out) :
    out.Pairwise (fun a b => ¬ placedOverlaps a b) ∧
    (∀ (ev : Event) (ck : Int) (busy : List (Dt × Dt))
        (sched : List ScheduledEvent) (cands : List (Dt × Dt))
        (cprefs : ChunkPrefs) (sys : Int),
      ((schedule_single_event shuffle ev ck busy sched cands cprefs sys).placed).isSome = true →
      MergedInv (schedule_single_event shuffle ev ck busy sched cands cprefs sys).busy) := by
  constructor
  · unfold schedule_events at hrun
    obtain ⟨events, _, h1⟩ := res_bind_ok hrun
    obtain ⟨final, hf, h2⟩ := res_bind_ok h1
    have hout := Res.ok.inj h2
    subst hout
    have hgs0 : GoodState
        ⟨merge_busy_slots (get_busy_from_imported imported), []⟩ := by
      refine ⟨merge_busy_slots_mergedInv _, ?_, List.Pairwise.nil⟩
      intro r hr
      simp at hr
    exact (foldlM_preserves GoodState _
      (fun s a s2 hp hpc => processEvent_preserves _ hsh s a s2 hp hpc)
      _ _ _ hgs0 hf).2.2
  · intro ev ck busy sched cands cprefs sys h
    rcases schedule_single_event_spec shuffle hsh ev ck busy sched cands cprefs
        sys with heq | ⟨s, e, c, _, heq, _, _⟩
    · rw [heq] at h
      simp at h
    · rw [heq]
      exact merge_busy_slots_mergedInv _

/-- Witness for C1 at the Scenario-A run (identity shuffle). -/
theorem c1_schedule_events_non_overlap_witness :
    (∀ (l : List (Dt × Dt)) (c : Dt × Dt), c ∈ id l → c ∈ l) ∧
    runScenarioA = .ok [scenarioARow] ∧
    ([scenarioARow].Pairwise (fun a b => ¬ placedOverlaps a b) ∧
    (∀ (ev : Event) (ck : Int) (busy : List (Dt × Dt))
        (sched : List ScheduledEvent) (cands : List (Dt × Dt))
        (cprefs : ChunkPrefs) (sys : Int),
      ((schedule_single_event id ev ck busy sched cands cprefs sys).placed).isSome = true →
      MergedInv (schedule_single_event id ev ck busy sched cands cprefs sys).busy)) :=
  ⟨fun l c h => h, by decide,
   c1_schedule_events_non_overlap id (fun l c h => h) 0 ⟨0, 0⟩ [rawBase]
     [(some ⟨9 * usPerHour, 0⟩, some ⟨10 * usPerHour, 0⟩)]
     (some ⟨0, 0⟩) (some ⟨24 * usPerHour - usPerMinute, 0⟩) none false
     [scenarioARow] (by decide)⟩


end Scheduler
